import Mathlib

/-!
Verification of the extraction-and-normalization core of `src/audero-lsg.js`
(Audero LSG 0.1.1), a living-style-guide generator.

The JavaScript source is shallowly embedded as follows.

* CSS values and selectors are `String`s; JS `undefined`/blank entries inside
  the aggregated value arrays are represented by `""` (the only falsy string),
  so `filter(Boolean)` becomes `filter (· != "")`.  Genuinely optional pieces
  (a `pop()` of a possibly empty array, an absent property aggregation) are
  `Option`.
* JS numbers are exact rationals (`Option ℚ`, `none` standing for `NaN`,
  which `parseFloat` returns on unparsable input and which propagates through
  arithmetic).  Every number the program manipulates is produced by
  `parseFloat` of a decimal literal prefix and combined by `*`, `-`, `/100`,
  for which double-precision evaluation is exact on the magnitudes involved;
  `ratToStr` prints such finite decimal fractions the way JS
  number-to-string does.
* The parsed tree (`css` parser) and the property aggregation (`cssstats`)
  are external collaborators: their outputs are the fields of `StyleGuide`,
  universally quantified in the theorems.
* `Array.prototype.sort` is stable (ES2019); it is embedded as a stable
  insertion sort.  A comparator result that is `NaN` is treated as `+0` by
  the ES `SortCompare` operation, hence `(·.getD 0)` below.
* `String.prototype.localeCompare` (locale collation) is approximated by
  code-point order; the program only ever feeds it unit prefixes, which are
  equal (both empty) for ordinary numeric CSS tokens.
-/

/- Batteries marks the `Rat` arithmetic operations `@[irreducible]`, which
blocks `decide` from evaluating concrete rational arithmetic; restore the
default reducibility so concrete documents can be computed on. -/
attribute [local semireducible] Rat.mul Rat.inv Rat.add Rat.sub Rat.ofScientific

namespace AuderoLsg

/-! ### Shared utilities of the source -/

/-- `excludedValues` from the source: values dropped from the canonical lists. -/
def excludedValues : List String := ["auto", "inherit", "initial", "none"]

/-- `defaultFontSize` from the source. -/
def defaultFontSize : String := "16px"

/-- Keep-first deduplication with an accumulator of already seen elements;
proved below to agree with `unique` (an element's index equals the index of
its first occurrence exactly when it has not occurred in the prefix already
traversed). -/
def uniqueGo {α : Type} [DecidableEq α] (seen : List α) : List α → List α
  | [] => []
  | y :: rest => if y ∈ seen then uniqueGo seen rest else y :: uniqueGo (y :: seen) rest

/-- `unique` from the source:
`array.filter((element, index) => array.indexOf(element) === index)`. -/
def unique {α : Type} [DecidableEq α] (array : List α) : List α :=
  (array.enum.filter (fun p => array.indexOf p.2 = p.1)).map Prod.snd

/-! ### A stable sort modelling `Array.prototype.sort` -/

/-- Insert `a` in front of the first element `b` with `le a b`; the model of
one step of a stable sort (an element moves before another only when the
comparator says strictly so). -/
def insertLe {α : Type} (le : α → α → Bool) (a : α) : List α → List α
  | [] => [a]
  | b :: l => if le a b then a :: b :: l else b :: insertLe le a l

/-- Stable insertion sort: the model of `Array.prototype.sort` (ES2019+
requires a stable sort; for a consistent comparator the stable sorted
permutation is unique, so the choice of algorithm is immaterial). -/
def insSort {α : Type} (le : α → α → Bool) : List α → List α
  | [] => []
  | a :: l => insertLe le a (insSort le l)

/-- Structural lexicographic strict comparison on character lists
(code-point order, which is JS code-unit order on the ASCII values this
program manipulates). -/
def lexLtChars : List Char → List Char → Bool
  | [], [] => false
  | [], _ :: _ => true
  | _ :: _, [] => false
  | a :: as, b :: bs => if a < b then true else if b < a then false else lexLtChars as bs

/-- Structural lexicographic `≤` on character lists. -/
def lexLeChars : List Char → List Char → Bool
  | [], _ => true
  | _ :: _, [] => false
  | a :: as, b :: bs => if a < b then true else if b < a then false else lexLeChars as bs

/-- JS `<` on strings. -/
def jsLtStr (a b : String) : Bool := lexLtChars a.toList b.toList

/-- JS `≤` on strings (the order `.sort()` with no comparator produces). -/
def jsLeStr (a b : String) : Bool := lexLeChars a.toList b.toList

/-- `.sort()` with no comparator on an array of strings: lexicographic
code-unit order. -/
def jsSortStr (l : List String) : List String :=
  insSort jsLeStr l

/-- `.sort(cmp)` with a numeric comparator; a `NaN` comparator result is
treated as `+0` (ES `SortCompare`). -/
def jsSortBy {α : Type} (cmp : α → α → Option ℚ) (l : List α) : List α :=
  insSort (fun a b => decide ((cmp a b).getD 0 ≤ 0)) l

/-! ### String primitives used by the source -/

/-- JS `String.prototype.trim`: strip leading and trailing whitespace
(character level; JS trims the full Unicode whitespace class, the model
uses `Char.isWhitespace`). -/
def trimChars (l : List Char) : List Char :=
  ((l.dropWhile Char.isWhitespace).reverse.dropWhile Char.isWhitespace).reverse

def jsTrim (s : String) : String := String.mk (trimChars s.toList)

/-- JS `String.prototype.split` with a one-character separator: split into the
(possibly empty) chunks between separator occurrences; `"".split(sep)` is
`[""]` and consecutive separators yield empty chunks. -/
def splitChars (sep : Char) : List Char → List (List Char)
  | [] => [[]]
  | c :: rest =>
    if c = sep then [] :: splitChars sep rest
    else
      match splitChars sep rest with
      | [] => [[c]]
      | t :: ts => (c :: t) :: ts

def jsSplit (sep : Char) (s : String) : List String :=
  (splitChars sep s.toList).map String.mk

/-- JS `indexOf(sub) >= 0`: substring containment. -/
def containsSub (s sub : String) : Bool :=
  decide (sub.toList <:+: s.toList)

/-! ### `parseFloat` and number-to-string, over exact rationals -/

/-- Numeric value of a list of decimal digit characters. -/
def digitsVal (l : List Char) : ℕ :=
  l.foldl (fun n c => 10 * n + (c.toNat - '0'.toNat)) 0

/-- JS `parseFloat`: skip leading whitespace, parse the longest prefix of the
form `[+-]? digits? (. digits?)? ([eE][+-]?digits)?` containing at least one
digit before the exponent; `none` models `NaN`.  (The `Infinity` literal and
exotic Unicode whitespace are not modelled; no value in this program uses
them.) -/
def parseFloat (s : String) : Option ℚ :=
  let l := s.toList.dropWhile Char.isWhitespace
  let sgnRest : ℚ × List Char :=
    match l with
    | '-' :: r => (-1, r)
    | '+' :: r => (1, r)
    | _ => (1, l)
  let sgn := sgnRest.1
  let l1 := sgnRest.2
  let ip := l1.takeWhile Char.isDigit
  let r1 := l1.dropWhile Char.isDigit
  let fpRest : List Char × List Char :=
    match r1 with
    | '.' :: r => (r.takeWhile Char.isDigit, r.dropWhile Char.isDigit)
    | _ => ([], r1)
  let fp := fpRest.1
  let r2 := fpRest.2
  if ip.isEmpty && fp.isEmpty then none
  else
    let mant : ℚ := (digitsVal ip : ℚ) + (digitsVal fp : ℚ) / (10 : ℚ) ^ fp.length
    let expVal : ℤ :=
      match r2 with
      | 'e' :: r | 'E' :: r =>
        match r with
        | '-' :: d =>
          if (d.takeWhile Char.isDigit).isEmpty then 0
          else -(digitsVal (d.takeWhile Char.isDigit) : ℤ)
        | '+' :: d =>
          if (d.takeWhile Char.isDigit).isEmpty then 0
          else (digitsVal (d.takeWhile Char.isDigit) : ℤ)
        | d =>
          if (d.takeWhile Char.isDigit).isEmpty then 0
          else (digitsVal (d.takeWhile Char.isDigit) : ℤ)
      | _ => 0
    some (sgn * mant * (10 : ℚ) ^ expVal)

/-- Smallest `k` with `den ∣ 10 ^ k`, when one exists (i.e. when the rational
is a finite decimal fraction). -/
def decExpFind (den : ℕ) : Option ℕ :=
  (List.range (den + 1)).find? (fun k => 10 ^ k % den == 0)

/-- Strip trailing `'0'` characters. -/
def stripZeros (l : List Char) : List Char :=
  (l.reverse.dropWhile (· = '0')).reverse

/-- Left-pad with `'0'` to length `k`. -/
def padZeros (k : ℕ) (l : List Char) : List Char :=
  List.replicate (k - l.length) '0' ++ l

/-- JS number-to-string for the finite decimal fractions this program
produces (`q.den` a product of 2s and 5s): minimal decimal digits, no
exponent form, `"-"` sign for negatives.  Rationals that are not finite
decimals never reach string conversion in the program; they get an
arbitrary fraction rendering. -/
def ratToStr (q : ℚ) : String :=
  match decExpFind q.den with
  | some k =>
    let m : ℕ := q.num.natAbs * 10 ^ k / q.den
    let ipart := m / 10 ^ k
    let fdigits := stripZeros (padZeros k (toString (m % 10 ^ k)).toList)
    (if q.num < 0 then "-" else "") ++ toString ipart ++
      (if fdigits.isEmpty then "" else "." ++ String.mk fdigits)
  | none => toString q.num ++ "/" ++ toString q.den

/-- Number-to-string on the `NaN`-extended numbers (`"" + n` in JS). -/
def numToStr : Option ℚ → String
  | none => "NaN"
  | some q => ratToStr q

/-- `NaN`-propagating multiplication. -/
def qMul : Option ℚ → Option ℚ → Option ℚ
  | some a, some b => some (a * b)
  | _, _ => none

/-- `NaN`-propagating subtraction. -/
def qSub : Option ℚ → Option ℚ → Option ℚ
  | some a, some b => some (a - b)
  | _, _ => none

/-- `NaN`-propagating division by a constant. -/
def qDiv (a : Option ℚ) (c : ℚ) : Option ℚ := a.map (fun x => x / c)

/-! ### The source's small predicates and comparators -/

/-- Hexadecimal digit as in the character class `[\dA-F]` with the `i` flag. -/
def isHexDigitA (c : Char) : Bool :=
  c.isDigit || ('A' ≤ c && c ≤ 'F') || ('a' ≤ c && c ≤ 'f')

/-- `isHackyColor` from the source: `color.indexOf('#') !== 0` (the color
does not start with `#`) returns `false`; otherwise the color is hacky
unless it matches `/^#([\dA-F]{3}|[\dA-F]{6})$/i`. -/
def isHackyColor (color : String) : Bool :=
  match color.toList with
  | '#' :: t => !(((t.length == 3) || (t.length == 6)) && t.all isHexDigitA)
  | _ => false

/-- `localeCompare` modelled as code-point comparison returning `-1`/`0`/`1`
(locale collation is implementation-defined; the program only compares unit
prefixes with it). -/
def localeCompareQ (a b : String) : ℚ :=
  if jsLtStr a b then -1 else if jsLtStr b a then 1 else 0

/-- `item.replace(/([-\d.]+).*/, '')` from `sortUnitValues`: the regex match
starts at the first character in the class `[-\d.]` and `.*` extends it to
the end of the string, so the replacement leaves the prefix before the first
digit, `-` or `.` (the whole string when there is no such character). -/
def replaceNumericTail (item : String) : String :=
  String.mk (item.toList.takeWhile (fun c => !(c.isDigit || c = '-' || c = '.')))

/-- `sortUnitValues` from the source: compare the prefixes left by
`replace(/([-\d.]+).*/, '')` with `localeCompare` when they differ, else
compare `parseFloat` values. -/
def sortUnitValues (item1 item2 : String) : Option ℚ :=
  let unit1 := replaceNumericTail item1
  let unit2 := replaceNumericTail item2
  if unit1 != unit2 then some (localeCompareQ unit1 unit2)
  else qSub (parseFloat item1) (parseFloat item2)

/-- `sortScalableFontSizes` from the source (the comparator returned by the
JS closure, for a given root font size): `parseFloat(size) * (size contains
"rem" ? rootFontSize : 1)`, compared by subtraction. -/
def sortScalableFontSizes (rootFontSize : Option ℚ) (size1 size2 : String) : Option ℚ :=
  qSub (qMul (parseFloat size1) (if containsSub size1 "rem" then rootFontSize else some 1))
    (qMul (parseFloat size2) (if containsSub size2 "rem" then rootFontSize else some 1))

/-- `remToPx` from the source: `parseFloat(rootFontSize) * parseFloat(fontSize)
+ 'px'`.  It is only called with the already-parsed numeric root size, for
which `parseFloat` is the identity, so the first argument is the number. -/
def remToPx (rootFontSize : Option ℚ) (fontSize : String) : String :=
  numToStr (qMul rootFontSize (parseFloat fontSize)) ++ "px"

/-! ### The `url(...)` extraction regex

`getFontUrls` extracts group 1 of `/url\s*\(['"]?(.*?)(?:\?.*)?['"]?\)/i`.
The regex is modelled directly: scan left to right for a case-insensitive
`url`, skip whitespace, require `(`, optionally (greedily, with backtracking)
take one quote, then grow the lazy capture `(.*?)` one character at a time
until the tail `(?:\?.*)?['"]?\)` can match.  The tail's own greedy choices
do not affect the captured group, only whether some match exists. -/

def isQuoteChar (c : Char) : Bool := c = '\'' || c = '"'

/-- `.` of the regex: any character but a line terminator. -/
def dotMatch (c : Char) : Bool := c ≠ '\n' && c ≠ '\r'

/-- Does `['"]?\)` match at the start of `l`?  (Either a closing paren right
away, or one opening quote then the paren.) -/
def closeQP : List Char → Bool
  | [] => false
  | c :: rest => c == ')' || (isQuoteChar c && rest.head? == some ')')

/-- Does `.*['"]?\)` match at the start of `l`?  (`.*` may consume zero or
more non-terminator characters.) -/
def existsClose : List Char → Bool
  | [] => false
  | c :: rest => closeQP (c :: rest) || (dotMatch c && existsClose rest)

/-- Does `(?:\?.*)?['"]?\)` match at the start of `l`? -/
def tailPat : List Char → Bool
  | [] => false
  | c :: rest => (c == '?' && existsClose rest) || closeQP (c :: rest)

/-- The lazy capture `(.*?)`: the shortest prefix of non-terminator
characters after which `tailPat` matches. -/
def lazyCapture : List Char → Option (List Char)
  | [] => if tailPat [] then some [] else none
  | c :: rest =>
    if tailPat (c :: rest) then some []
    else if dotMatch c then (lazyCapture rest).map (fun g => c :: g)
    else none

/-- After the `\(`: the greedy optional opening quote, backtracking to the
empty alternative if the quoted attempt fails. -/
def afterParen : List Char → Option (List Char)
  | [] => lazyCapture []
  | c :: rest =>
    if isQuoteChar c then (lazyCapture rest).orElse (fun _ => lazyCapture (c :: rest))
    else lazyCapture (c :: rest)

/-- Attempt the whole pattern at the start of `l`. -/
def matchUrlAt : List Char → Option (List Char)
  | c1 :: c2 :: c3 :: rest =>
    if c1.toLower = 'u' && c2.toLower = 'r' && c3.toLower = 'l' then
      match rest.dropWhile Char.isWhitespace with
      | '(' :: rest2 => afterParen rest2
      | _ => none
    else none
  | _ => none

/-- Leftmost match: try every start position in order. -/
def urlRegexCapture : List Char → Option (List Char)
  | [] => none
  | c :: rest => (matchUrlAt (c :: rest)).orElse (fun _ => urlRegexCapture rest)

/-- `url.match(/url\s*\(['"]?(.*?)(?:\?.*)?['"]?\)/i)[1]`; `none` when the
regex does not match (in JS `match` returns `null` and the indexing throws,
which the caller catches). -/
def urlMatch1 (s : String) : Option String :=
  (urlRegexCapture s.toList).map String.mk

/-! ### The data model: parsed tree and property aggregation

The `css` parser and `cssstats` are external collaborators; a `StyleGuide`
carries their outputs.  A declaration node's `property`/`value` are `""`
when the parser supplies none (only nodes with `type = "declaration"` are
ever inspected for them); absent property aggregations are `none`. -/

structure DeclNode where
  type : String
  property : String
  value : String
deriving DecidableEq

structure RuleNode where
  type : String
  selectors : List String
  declarations : List DeclNode
deriving DecidableEq

structure Stylesheet where
  rules : List RuleNode
deriving DecidableEq

structure CssAst where
  stylesheet : Stylesheet
deriving DecidableEq

structure Statistics where
  properties : String → Option (List String)
  allFontSizes : List String
  allFontFamilies : List String

structure StyleGuide where
  cssAst : CssAst
  statistics : Statistics

/-! ### The Core accessors -/

/-- `StyleGuide.prototype.getBackgroundColors`. -/
def StyleGuide.getBackgroundColors (sg : StyleGuide) : List String :=
  let colors := ((sg.statistics.properties "background-color").getD []).filter (fun v => v != "")
  if colors.length = 0 then colors
  else
    let colors := colors.filter (fun color => !isHackyColor color)
    jsSortStr ((unique colors).filter (fun item => !excludedValues.contains item))

/-- `StyleGuide.prototype.getColorColors` (the `color` property). -/
def StyleGuide.getColorColors (sg : StyleGuide) : List String :=
  let colors := ((sg.statistics.properties "color").getD []).filter (fun v => v != "")
  if colors.length = 0 then colors
  else
    let colors := colors.filter (fun color => !isHackyColor color)
    jsSortStr ((unique colors).filter (fun item => !excludedValues.contains item))

/-- `StyleGuide.prototype.getColors`. -/
def StyleGuide.getColors (sg : StyleGuide) : List String :=
  jsSortStr (unique (sg.getColorColors ++ sg.getBackgroundColors))

/-- `StyleGuide.prototype.getFontSizes`. -/
def StyleGuide.getFontSizes (sg : StyleGuide) : List String :=
  (unique sg.statistics.allFontSizes).filter (fun item => !excludedValues.contains item)

/-- `StyleGuide.prototype.getFontFamilies`. -/
def StyleGuide.getFontFamilies (sg : StyleGuide) : List String :=
  sg.statistics.allFontFamilies

/-- `StyleGuide.prototype.getFontsInUse`. -/
def StyleGuide.getFontsInUse (sg : StyleGuide) : List String :=
  let fontsFamilies := sg.getFontFamilies.foldl
    (fun previous fontFamily => previous ++ (jsSplit ',' fontFamily).map jsTrim) []
  jsSortStr (unique fontsFamilies)

/-- Update-or-append on the association-list model of a JS object
(assignment keeps the first-insertion position of an existing key). -/
def hashInsert (hash : List (String × String)) (k v : String) : List (String × String) :=
  if hash.any (fun p => p.1 == k) then
    hash.map (fun p => if p.1 == k then (k, v) else p)
  else hash ++ [(k, v)]

/-- `StyleGuide.prototype.getFontUrls`.  For each `font-face` rule the last
`font-family` declaration value is the key (JS coerces an absent —
`undefined` — key to the string `"undefined"`) and the value is group 1 of
the url regex applied to the last `src` declaration value; the `try/catch`
turns a missing `src` or a failed match into `''`. -/
def StyleGuide.getFontUrls (sg : StyleGuide) : List (String × String) :=
  (sg.cssAst.stylesheet.rules.filter (fun item => item.type == "font-face")).foldl
    (fun hash declarationBlock =>
      let fontFamily : Option String :=
        ((declarationBlock.declarations.filter (fun d =>
          d.type == "declaration" && d.property == "font-family")).map (fun d => d.value)).getLast?
      let url : Option String :=
        ((declarationBlock.declarations.filter (fun d =>
          d.type == "declaration" && d.property == "src")).map (fun d => d.value)).getLast?
      let v : String :=
        match url with
        | none => ""
        | some u =>
          match urlMatch1 u with
          | none => ""
          | some g => g
      hashInsert hash (fontFamily.getD "undefined") v)
    []

/-- `StyleGuide.prototype.getFontsNotInUse`. -/
def StyleGuide.getFontsNotInUse (sg : StyleGuide) : List String :=
  let fontUrls := sg.getFontUrls
  let declaredFonts := unique (sg.getFontsInUse.foldl
    (fun fonts fontFamily => fonts ++ (jsSplit ',' fontFamily).map jsTrim) [])
  (fontUrls.map Prod.fst).filter (fun font => !declaredFonts.contains font)

/-- `StyleGuide.prototype.getFonts`. -/
def StyleGuide.getFonts (sg : StyleGuide) : List String :=
  sg.getFontsInUse ++ sg.getFontsNotInUse

/-- `StyleGuide.prototype.getSpacings`. -/
def StyleGuide.getSpacings (sg : StyleGuide) : List String :=
  let spacings :=
    ((sg.statistics.properties "margin").getD [] ++
      -- `concat(properties.padding)` with an absent aggregation appends the
      -- single (falsy) element `undefined`, removed by `filter(Boolean)`
      (match sg.statistics.properties "padding" with
        | some l => l
        | none => [""])).filter (fun v => v != "")
  if spacings.length = 0 then spacings
  else
    (jsSortBy sortUnitValues
      ((unique (spacings.foldl (fun previous value => previous ++ jsSplit ' ' value) [])).filter
        (fun item => !excludedValues.contains item))).reverse

/-- `getRootFontSize` from the source. -/
def getRootFontSize (styleGuide : StyleGuide) : String :=
  let fontSize :=
    (((styleGuide.cssAst.stylesheet.rules.filter (fun declaration =>
      declaration.type == "rule" && declaration.selectors.length == 1 &&
        declaration.selectors.headD "" == "html")).foldl
        (fun previous declarationBlock => previous ++ declarationBlock.declarations) []).filter
      (fun declaration =>
        declaration.type == "declaration" && declaration.property == "font-size")).getLast?
  match fontSize with
  | none => defaultFontSize
  | some fs =>
    if containsSub fs.value "%" then
      numToStr (qDiv (qMul (parseFloat defaultFontSize) (parseFloat fs.value)) 100) ++ "px"
    else fs.value

/-- `scaleFontSizes` from the source. -/
def scaleFontSizes (fontSizes : List String) (rootSize : String) : List (String × String) :=
  let unitlessRootSize := parseFloat rootSize
  ((jsSortBy (sortScalableFontSizes unitlessRootSize)
    (fontSizes.filter (fun size => containsSub size "rem" || containsSub size "px"))).reverse).map
    (fun size =>
      if containsSub size "rem" then (remToPx unitlessRootSize size, size) else (size, size))

/-- `filterScalableFontSizes` from the source (the non-scalable list). -/
def filterScalableFontSizes (fontSizes : List String) : List String :=
  (jsSortBy sortUnitValues
    (fontSizes.filter (fun size => !(containsSub size "rem") && !(containsSub size "px")))).reverse

/-! ### `getFontUrls` as a fold of upserts -/

/-- The key a `font-face` rule contributes: the last `font-family`
declaration value, the string `"undefined"` when there is none. -/
def ffKey (declarationBlock : RuleNode) : String :=
  (((declarationBlock.declarations.filter (fun d =>
    d.type == "declaration" && d.property == "font-family")).map
      (fun d => d.value)).getLast?).getD "undefined"

/-- The url a `font-face` rule contributes: group 1 of the url regex on the
last `src` declaration value, `""` when absent or unmatched. -/
def ffUrl (declarationBlock : RuleNode) : String :=
  match ((declarationBlock.declarations.filter (fun d =>
      d.type == "declaration" && d.property == "src")).map (fun d => d.value)).getLast? with
  | none => ""
  | some u =>
    match urlMatch1 u with
    | none => ""
    | some g => g

/-- The combined raw `margin`/`padding` value list (the `undefined` appended
by `concat` on a missing `padding` aggregation is falsy, so after
`filter(Boolean)` the combination equals the one built from defaults). -/
def rawSpacingValues (sg : StyleGuide) : List String :=
  (sg.statistics.properties "margin").getD [] ++ (sg.statistics.properties "padding").getD []

/-! ### Concrete documents used by the claims -/

/-- A document whose raw `font-family` aggregation is `["inherit",
"inherit"]` and which declares a `font-face` named `none`: the four font
accessors violate the blanket no-duplicate/no-excluded-value claim. -/
def sgC1 : StyleGuide :=
  ⟨⟨⟨[⟨"font-face", [], [⟨"declaration", "font-family", "none"⟩,
    ⟨"declaration", "src", "url(n.woff)"⟩]⟩]⟩⟩,
    ⟨fun _ => none, [], ["inherit", "inherit"]⟩⟩

/-- A concrete document exercising `c2_colors_is_sorted_dedup_union`:
`#000` is a text color, appears in `colors()` exactly once, and the
combined list is sorted. -/
def sgC2w : StyleGuide :=
  ⟨⟨⟨[]⟩⟩,
    ⟨fun p =>
      if p = "color" then some ["#000", "#fff"]
      else if p = "background-color" then some ["#fff"] else none, [], []⟩⟩

/-! ### The well-formed hex predicate (spec vocabulary) -/

/-- Well-formed short/long hex color, following the spec's words: a `#`
followed by exactly 3 or exactly 6 hexadecimal digits. -/
def wellFormedHexColor (c : String) : Bool :=
  match c.toList with
  | '#' :: t => ((t.length == 3) || (t.length == 6)) && t.all isHexDigitA
  | _ => false

/-- The document of the C7 scenario: `color:#000\9` and `color:#000`. -/
def sgC7 : StyleGuide :=
  ⟨⟨⟨[]⟩⟩, ⟨fun p => if p = "color" then some ["#000\\9", "#000"] else none, [], []⟩⟩

/-! ### Documents for the font-face claims -/

/-- The C10 scenario document: one `font-face` rule with a quoted family
name and a query-string url, no style rule using the family. -/
def sgFF : StyleGuide :=
  ⟨⟨⟨[⟨"font-face", [], [⟨"declaration", "font-family", "\"Open Sans\""⟩,
    ⟨"declaration", "src", "url(fonts/open-sans.woff?v=1) format(\"woff\")"⟩]⟩]⟩⟩,
    ⟨fun _ => none, [], []⟩⟩

/-- A `font-face` rule with a `src` but no `font-family` declaration. -/
def sgFF2 : StyleGuide :=
  ⟨⟨⟨[⟨"font-face", [], [⟨"declaration", "src", "url(a.woff)"⟩]⟩]⟩⟩,
    ⟨fun _ => none, [], []⟩⟩

/-- A `font-face` rule with a `font-family` but no `src` declaration. -/
def ruleNoSrc : RuleNode :=
  ⟨"font-face", [], [⟨"declaration", "font-family", "f1"⟩]⟩

/-- A `font-face` rule with neither declaration. -/
def ruleNoFam : RuleNode := ⟨"font-face", [], [⟨"declaration", "font-style", "normal"⟩]⟩

/-- Two `font-face` rules, the first without `src`: extraction must not
abort on the first and must still process the second. -/
def sgC9 : StyleGuide :=
  ⟨⟨⟨[ruleNoSrc,
    ⟨"font-face", [], [⟨"declaration", "font-family", "f2"⟩,
      ⟨"declaration", "src", "url(b.woff)"⟩]⟩]⟩⟩,
    ⟨fun _ => none, [], []⟩⟩

/-- A document with no property aggregations at all. -/
def sgNoProps : StyleGuide := ⟨⟨⟨[]⟩⟩, ⟨fun _ => none, [], []⟩⟩

/-! ### The specification-side root-font-size search -/

/-- The `font-size` declaration values on rules whose selector list is
exactly `["html"]`, in source order (the specification-level reading of the
root-font-size search). -/
def htmlFontSizeDecls (sg : StyleGuide) : List String :=
  sg.cssAst.stylesheet.rules.flatMap (fun r =>
    if r.type = "rule" ∧ r.selectors = ["html"] then
      (r.declarations.filter (fun d =>
        d.type == "declaration" && d.property == "font-size")).map (fun d => d.value)
    else [])

/-- The C3 scenario document: `html{font-size:62.5%}`. -/
def sgC3 : StyleGuide :=
  ⟨⟨⟨[⟨"rule", ["html"], [⟨"declaration", "font-size", "62.5%"⟩]⟩]⟩⟩,
    ⟨fun _ => none, [], []⟩⟩

/-- A document with a literal (non-percentage) root font size and an
earlier overridden declaration. -/
def sgC3b : StyleGuide :=
  ⟨⟨⟨[⟨"rule", ["html"], [⟨"declaration", "font-size", "20px"⟩,
    ⟨"declaration", "font-size", "18px"⟩]⟩]⟩⟩,
    ⟨fun _ => none, [], []⟩⟩

/-! ### The specification-side unit comparator -/

/-- The unit suffix of a token per the spec's §4.5 pattern: drop an
optional sign, the digits, and an optional fraction; the remainder is the
unit string. -/
def specUnitSuffix (s : String) : String :=
  let l := s.toList
  let l1 : List Char :=
    match l with
    | '-' :: r => r
    | '+' :: r => r
    | _ => l
  let l2 := l1.dropWhile Char.isDigit
  let l3 : List Char :=
    match l2 with
    | '.' :: r => r.dropWhile Char.isDigit
    | _ => l2
  String.mk l3

/-- The unit-aware comparator the spec describes: primary key the unit
suffix (lexicographic), secondary key the numeric magnitude. -/
def specSortUnitValues (item1 item2 : String) : Option ℚ :=
  let unit1 := specUnitSuffix item1
  let unit2 := specUnitSuffix item2
  if unit1 != unit2 then some (localeCompareQ unit1 unit2)
  else qSub (parseFloat item1) (parseFloat item2)

/-- The non-scalable display list the spec describes: ascending by the
spec's comparator, then reversed. -/
def specNonScalableList (fontSizes : List String) : List String :=
  (jsSortBy specSortUnitValues
    (fontSizes.filter (fun size =>
      !(containsSub size "rem") && !(containsSub size "px")))).reverse

/-- A `margin` value with two consecutive spaces: `split(' ')` produces an
empty token that survives to the output. -/
def sgC5a : StyleGuide :=
  ⟨⟨⟨[]⟩⟩, ⟨fun p => if p = "margin" then some ["10px  5px"] else none, [], []⟩⟩

/-- A `padding` value with a tab: `split(' ')` does not split on it, so a
whitespace-containing token survives to the output. -/
def sgC5b : StyleGuide :=
  ⟨⟨⟨[]⟩⟩, ⟨fun p => if p = "padding" then some ["1px\t2px"] else none, [], []⟩⟩

/-- The spec's C5 scenario: shorthand `10px 5px 10px 5px`. -/
def sgC5c : StyleGuide :=
  ⟨⟨⟨[]⟩⟩, ⟨fun p => if p = "margin" then some ["10px 5px 10px 5px"] else none, [], []⟩⟩

/-! ### The scalable sort key and the C6 document -/

/-- The numeric sort key of the scalable pipeline: `parseFloat(size)`
multiplied by the root size for rem values. -/
def scalableKey (rootFontSize : Option ℚ) (size : String) : Option ℚ :=
  qMul (parseFloat size) (if containsSub size "rem" then rootFontSize else some 1)

/-- The C6 scenario document: `.a{font-size:2rem} .b{font-size:24px}
html{font-size:62.5%}`. -/
def sgC6 : StyleGuide :=
  ⟨⟨⟨[⟨"rule", [".a"], [⟨"declaration", "font-size", "2rem"⟩]⟩,
    ⟨"rule", [".b"], [⟨"declaration", "font-size", "24px"⟩]⟩,
    ⟨"rule", ["html"], [⟨"declaration", "font-size", "62.5%"⟩]⟩]⟩⟩,
    ⟨fun _ => none, ["2rem", "24px", "62.5%"], []⟩⟩

/-! ## Theorems -/

theorem indexOf_append_of_not_mem {α : Type} [DecidableEq α] {x : α} :
    ∀ {pre : List α} (suf : List α), x ∉ pre →
      (pre ++ suf).indexOf x = pre.length + suf.indexOf x := by
  intro pre
  induction pre with
  | nil => intro suf _; simp
  | cons a t ih =>
    intro suf hx
    have hax : (a == x) = false := by
      simp only [beq_eq_false_iff_ne, ne_eq]
      exact fun h => hx (h ▸ List.mem_cons_self a t)
    rw [List.cons_append, List.indexOf_cons, hax, cond_false,
      ih suf (fun h => hx (List.mem_cons_of_mem a h))]
    simp only [List.length_cons]
    omega

theorem indexOf_append_lt_of_mem {α : Type} [DecidableEq α] {x : α} :
    ∀ {pre : List α} (suf : List α), x ∈ pre → (pre ++ suf).indexOf x < pre.length := by
  intro pre
  induction pre with
  | nil => intro suf h; cases h
  | cons a t ih =>
    intro suf hx
    rw [List.cons_append, List.indexOf_cons]
    by_cases hax : (a == x) = true
    · rw [hax, cond_true]
      simp
    · rw [Bool.eq_false_iff.mpr hax, cond_false]
      have hxt : x ∈ t := by
        rcases List.mem_cons.mp hx with rfl | h
        · exact absurd (beq_iff_eq.mpr rfl) hax
        · exact h
      have := ih suf hxt
      simp only [List.length_cons]
      omega

theorem uniqueGo_eq_enumFrom {α : Type} [DecidableEq α] (l : List α) :
    ∀ (suf pre seen : List α), pre ++ suf = l → (∀ x, x ∈ seen ↔ x ∈ pre) →
      uniqueGo seen suf =
        ((List.enumFrom pre.length suf).filter (fun p => l.indexOf p.2 = p.1)).map Prod.snd := by
  intro suf
  induction suf with
  | nil => intro pre seen _ _; rfl
  | cons y rest ih =>
    intro pre seen hsplit hseen
    rw [show List.enumFrom pre.length (y :: rest) =
      (pre.length, y) :: List.enumFrom (pre.length + 1) rest from rfl, List.filter_cons]
    have hsplit' : (pre ++ [y]) ++ rest = l := by
      rw [← hsplit]
      simp
    have hlen' : (pre ++ [y]).length = pre.length + 1 := by simp
    by_cases hy : y ∈ seen
    · have hyp : y ∈ pre := (hseen y).mp hy
      have hcond : ¬ (l.indexOf y = pre.length) := by
        rw [← hsplit]
        exact ne_of_lt (indexOf_append_lt_of_mem _ hyp)
      rw [if_neg (by simpa using hcond)]
      have hseen' : ∀ x, x ∈ seen ↔ x ∈ pre ++ [y] := by
        intro x
        rw [hseen x]
        constructor
        · intro h; exact List.mem_append_left _ h
        · intro h
          rcases List.mem_append.mp h with h | h
          · exact h
          · rw [List.mem_singleton] at h
            exact h ▸ hyp
      rw [show uniqueGo seen (y :: rest) = uniqueGo seen rest by simp [uniqueGo, hy],
        ih (pre ++ [y]) seen hsplit' hseen', hlen']
    · have hyp : y ∉ pre := fun h => hy ((hseen y).mpr h)
      have hcond : l.indexOf y = pre.length := by
        rw [← hsplit, indexOf_append_of_not_mem _ hyp, List.indexOf_cons,
          beq_iff_eq.mpr rfl, cond_true]
        omega
      rw [if_pos (by simpa using hcond)]
      have hseen' : ∀ x, x ∈ y :: seen ↔ x ∈ pre ++ [y] := by
        intro x
        rw [List.mem_cons, hseen x, List.mem_append, List.mem_singleton, or_comm]
      rw [show uniqueGo seen (y :: rest) = y :: uniqueGo (y :: seen) rest by
          simp [uniqueGo, hy],
        ih (pre ++ [y]) (y :: seen) hsplit' hseen', hlen']
      rfl

theorem unique_eq_uniqueGo {α : Type} [DecidableEq α] (l : List α) :
    unique l = uniqueGo [] l := by
  have h := uniqueGo_eq_enumFrom l l [] [] rfl (by simp)
  rw [h]
  rfl

theorem mem_uniqueGo {α : Type} [DecidableEq α] {seen l : List α} {x : α} :
    x ∈ uniqueGo seen l ↔ x ∈ l ∧ x ∉ seen := by
  induction l generalizing seen with
  | nil => simp [uniqueGo]
  | cons y rest ih =>
    by_cases hy : y ∈ seen
    · simp only [uniqueGo, if_pos hy, ih, List.mem_cons]
      constructor
      · rintro ⟨hx, hs⟩; exact ⟨Or.inr hx, hs⟩
      · rintro ⟨hx | hx, hs⟩
        · exact absurd hy (hx ▸ hs)
        · exact ⟨hx, hs⟩
    · simp only [uniqueGo, if_neg hy, List.mem_cons, ih]
      constructor
      · rintro (rfl | ⟨hx, hs⟩)
        · exact ⟨Or.inl rfl, hy⟩
        · exact ⟨Or.inr hx, fun hmem => hs (Or.inr hmem)⟩
      · rintro ⟨rfl | hx, hs⟩
        · exact Or.inl rfl
        · by_cases hxy : x = y
          · exact Or.inl hxy
          · exact Or.inr ⟨hx, fun hmem => hmem.elim hxy hs⟩

theorem mem_unique {α : Type} [DecidableEq α] {l : List α} {x : α} :
    x ∈ unique l ↔ x ∈ l := by
  rw [unique_eq_uniqueGo]
  simp [mem_uniqueGo]

theorem nodup_uniqueGo {α : Type} [DecidableEq α] (seen l : List α) :
    (uniqueGo seen l).Nodup := by
  induction l generalizing seen with
  | nil => simp [uniqueGo]
  | cons y rest ih =>
    by_cases hy : y ∈ seen
    · simpa [uniqueGo, if_pos hy] using ih seen
    · simp only [uniqueGo, if_neg hy, List.nodup_cons]
      refine ⟨fun hmem => ?_, ih (y :: seen)⟩
      exact (mem_uniqueGo.mp hmem).2 (List.mem_cons_self y seen)

theorem nodup_unique {α : Type} [DecidableEq α] (l : List α) : (unique l).Nodup :=
  unique_eq_uniqueGo l ▸ nodup_uniqueGo [] l

theorem uniqueGo_eq_self {α : Type} [DecidableEq α] {seen l : List α}
    (hl : l.Nodup) (hdisj : ∀ x ∈ l, x ∉ seen) : uniqueGo seen l = l := by
  induction l generalizing seen with
  | nil => rfl
  | cons y rest ih =>
    have hy : y ∉ seen := hdisj y (List.mem_cons_self y rest)
    simp only [uniqueGo, if_neg hy]
    rw [ih (List.nodup_cons.mp hl).2]
    intro x hx
    simp only [List.mem_cons]
    push_neg
    exact ⟨fun hxy => (List.nodup_cons.mp hl).1 (hxy ▸ hx), hdisj x (List.mem_cons_of_mem y hx)⟩

theorem unique_eq_self {α : Type} [DecidableEq α] {l : List α} (hl : l.Nodup) :
    unique l = l := by
  rw [unique_eq_uniqueGo]
  exact uniqueGo_eq_self hl (by simp)

theorem perm_insertLe {α : Type} (le : α → α → Bool) (a : α) (l : List α) :
    List.Perm (insertLe le a l) (a :: l) := by
  induction l with
  | nil => exact List.Perm.refl _
  | cons b t ih =>
    by_cases h : le a b
    · simp [insertLe, h]
    · simp only [insertLe, if_neg h]
      exact (ih.cons b).trans (List.Perm.swap a b t)

theorem perm_insSort {α : Type} (le : α → α → Bool) (l : List α) :
    List.Perm (insSort le l) l := by
  induction l with
  | nil => exact List.Perm.refl _
  | cons a t ih => exact (perm_insertLe le a (insSort le t)).trans (ih.cons a)

theorem mem_insSort {α : Type} (le : α → α → Bool) {l : List α} {x : α} :
    x ∈ insSort le l ↔ x ∈ l :=
  (perm_insSort le l).mem_iff

theorem nodup_insSort {α : Type} (le : α → α → Bool) {l : List α} (h : l.Nodup) :
    (insSort le l).Nodup :=
  (perm_insSort le l).nodup_iff.mpr h

theorem pairwise_insertLe {α : Type} (le : α → α → Bool) (a : α) (l : List α)
    (hl : l.Pairwise (fun x y => le x y = true))
    (htot : ∀ b ∈ l, le a b = true ∨ le b a = true)
    (htrans : ∀ b ∈ l, ∀ c ∈ l, le a b = true → le b c = true → le a c = true) :
    (insertLe le a l).Pairwise (fun x y => le x y = true) := by
  induction l with
  | nil => simp [insertLe]
  | cons b t ih =>
    rcases List.pairwise_cons.mp hl with ⟨hb, ht⟩
    by_cases h : le a b
    · simp only [insertLe, if_pos h]
      refine List.Pairwise.cons ?_ hl
      intro y hy
      rcases List.mem_cons.mp hy with rfl | hyt
      · exact h
      · exact htrans b (List.mem_cons_self b t) y (List.mem_cons_of_mem b hyt) h (hb y hyt)
    · have hba : le b a = true := by
        rcases htot b (List.mem_cons_self b t) with h' | h'
        · exact absurd h' h
        · exact h'
      simp only [insertLe, if_neg h]
      refine List.Pairwise.cons ?_ ?_
      · intro y hy
        rcases List.mem_cons.mp ((perm_insertLe le a t).mem_iff.mp hy) with rfl | hyt
        · exact hba
        · exact hb y hyt
      · refine ih ht ?_ ?_
        · intro c hc; exact htot c (List.mem_cons_of_mem b hc)
        · intro c hc d hd
          exact htrans c (List.mem_cons_of_mem b hc) d (List.mem_cons_of_mem b hd)

theorem pairwise_insSort {α : Type} (le : α → α → Bool) (l : List α)
    (htot : ∀ a ∈ l, ∀ b ∈ l, le a b = true ∨ le b a = true)
    (htrans : ∀ a ∈ l, ∀ b ∈ l, ∀ c ∈ l, le a b = true → le b c = true → le a c = true) :
    (insSort le l).Pairwise (fun x y => le x y = true) := by
  induction l with
  | nil => simp [insSort]
  | cons a t ih =>
    have hmem : ∀ x ∈ insSort le t, x ∈ t := fun x hx => (mem_insSort le).mp hx
    refine pairwise_insertLe le a (insSort le t) ?_ ?_ ?_
    · refine ih ?_ ?_
      · intro x hx y hy
        exact htot x (List.mem_cons_of_mem a hx) y (List.mem_cons_of_mem a hy)
      · intro x hx y hy z hz
        exact htrans x (List.mem_cons_of_mem a hx) y (List.mem_cons_of_mem a hy)
          z (List.mem_cons_of_mem a hz)
    · intro b hb
      exact htot a (List.mem_cons_self a t) b (List.mem_cons_of_mem a (hmem b hb))
    · intro b hb c hc
      exact htrans a (List.mem_cons_self a t) b (List.mem_cons_of_mem a (hmem b hb))
        c (List.mem_cons_of_mem a (hmem c hc))

theorem lexLeChars_iff_not_lex : ∀ (as bs : List Char),
    lexLeChars as bs = true ↔ ¬ List.Lex (· < ·) bs as := by
  intro as
  induction as with
  | nil =>
    intro bs
    simp only [lexLeChars, true_iff]
    intro h
    cases h
  | cons a as ih =>
    intro bs
    cases bs with
    | nil =>
      exact iff_of_false (by simp [lexLeChars]) (fun h => h List.Lex.nil)
    | cons b bs =>
      by_cases hab : a < b
      · simp only [lexLeChars, if_pos hab, true_iff]
        intro h
        cases h with
        | rel h' => exact absurd hab (asymm h')
        | cons h' => exact absurd rfl (ne_of_gt hab)
      · by_cases hba : b < a
        · refine iff_of_false (by simp [lexLeChars, hab, hba]) (fun h => h (List.Lex.rel hba))
        · have hEq : a = b := le_antisymm (not_lt.mp hba) (not_lt.mp hab)
          subst hEq
          simp only [lexLeChars, if_neg hab, if_neg hba]
          rw [ih bs]
          constructor
          · intro h h'
            cases h' with
            | rel h'' => exact absurd h'' hab
            | cons h'' => exact h h''
          · intro h h'
            exact h (List.Lex.cons h')

/-- `jsLeStr` agrees with Mathlib's linear order on `String`. -/
theorem jsLeStr_iff_le {a b : String} : jsLeStr a b = true ↔ a ≤ b := by
  rw [jsLeStr, lexLeChars_iff_not_lex, String.le_iff_toList_le, ← not_lt]
  exact Iff.rfl

/-! ### General lemmas about the embedded pipelines -/

theorem jsSortStr_sorted (l : List String) : (jsSortStr l).Pairwise (· ≤ ·) := by
  have h := pairwise_insSort jsLeStr l
    (fun a _ b _ => by
      rcases le_total a b with h' | h'
      · exact Or.inl (jsLeStr_iff_le.mpr h')
      · exact Or.inr (jsLeStr_iff_le.mpr h'))
    (fun a _ b _ c _ hab hbc =>
      jsLeStr_iff_le.mpr (le_trans (jsLeStr_iff_le.mp hab) (jsLeStr_iff_le.mp hbc)))
  exact h.imp (fun hx => jsLeStr_iff_le.mp hx)

theorem mem_jsSortStr {l : List String} {x : String} : x ∈ jsSortStr l ↔ x ∈ l :=
  mem_insSort _

theorem nodup_jsSortStr {l : List String} (h : l.Nodup) : (jsSortStr l).Nodup :=
  nodup_insSort _ h

theorem mem_jsSortBy {α : Type} (cmp : α → α → Option ℚ) {l : List α} {x : α} :
    x ∈ jsSortBy cmp l ↔ x ∈ l :=
  mem_insSort _

theorem nodup_jsSortBy {α : Type} (cmp : α → α → Option ℚ) {l : List α} (h : l.Nodup) :
    (jsSortBy cmp l).Nodup :=
  nodup_insSort _ h

/-- Membership in `getColorColors`: exactly the non-blank, non-hacky,
non-excluded values aggregated for the `color` property. -/
theorem mem_getColorColors {sg : StyleGuide} {x : String} :
    x ∈ sg.getColorColors ↔
      x ∈ (sg.statistics.properties "color").getD [] ∧ x ≠ "" ∧
        isHackyColor x = false ∧ x ∉ excludedValues := by
  unfold StyleGuide.getColorColors
  set base := ((sg.statistics.properties "color").getD []).filter (fun v => v != "") with hbase
  have hmem_base : ∀ y, y ∈ base ↔ y ∈ (sg.statistics.properties "color").getD [] ∧ y ≠ "" := by
    intro y; simp [hbase]
  by_cases h : base.length = 0
  · rw [if_pos h]
    rw [List.length_eq_zero] at h
    constructor
    · intro hx; rw [h] at hx; exact absurd hx (List.not_mem_nil x)
    · rintro ⟨h1, h2, _, _⟩
      have : x ∈ base := (hmem_base x).mpr ⟨h1, h2⟩
      rw [h] at this; exact absurd this (List.not_mem_nil x)
  · rw [if_neg h]
    rw [mem_jsSortStr, List.mem_filter, mem_unique, List.mem_filter]
    constructor
    · rintro ⟨⟨hb, hh⟩, he⟩
      rcases (hmem_base x).mp hb with ⟨h1, h2⟩
      refine ⟨h1, h2, ?_, ?_⟩
      · simpa using hh
      · simpa using he
    · rintro ⟨h1, h2, h3, h4⟩
      refine ⟨⟨(hmem_base x).mpr ⟨h1, h2⟩, ?_⟩, ?_⟩
      · simpa using h3
      · simpa using h4

/-- Membership in `getBackgroundColors`. -/
theorem mem_getBackgroundColors {sg : StyleGuide} {x : String} :
    x ∈ sg.getBackgroundColors ↔
      x ∈ (sg.statistics.properties "background-color").getD [] ∧ x ≠ "" ∧
        isHackyColor x = false ∧ x ∉ excludedValues := by
  unfold StyleGuide.getBackgroundColors
  set base := ((sg.statistics.properties "background-color").getD []).filter (fun v => v != "")
    with hbase
  have hmem_base : ∀ y, y ∈ base ↔
      y ∈ (sg.statistics.properties "background-color").getD [] ∧ y ≠ "" := by
    intro y; simp [hbase]
  by_cases h : base.length = 0
  · rw [if_pos h]
    rw [List.length_eq_zero] at h
    constructor
    · intro hx; rw [h] at hx; exact absurd hx (List.not_mem_nil x)
    · rintro ⟨h1, h2, _, _⟩
      have : x ∈ base := (hmem_base x).mpr ⟨h1, h2⟩
      rw [h] at this; exact absurd this (List.not_mem_nil x)
  · rw [if_neg h]
    rw [mem_jsSortStr, List.mem_filter, mem_unique, List.mem_filter]
    constructor
    · rintro ⟨⟨hb, hh⟩, he⟩
      rcases (hmem_base x).mp hb with ⟨h1, h2⟩
      refine ⟨h1, h2, ?_, ?_⟩
      · simpa using hh
      · simpa using he
    · rintro ⟨h1, h2, h3, h4⟩
      refine ⟨⟨(hmem_base x).mpr ⟨h1, h2⟩, ?_⟩, ?_⟩
      · simpa using h3
      · simpa using h4

theorem nodup_getColorColors (sg : StyleGuide) : sg.getColorColors.Nodup := by
  unfold StyleGuide.getColorColors
  by_cases h : (((sg.statistics.properties "color").getD []).filter
      (fun v => v != "")).length = 0
  · simp only [if_pos h]
    rw [List.length_eq_zero] at h
    simp [h]
  · simp only [if_neg h]
    exact nodup_jsSortStr ((nodup_unique _).filter _)

theorem nodup_getBackgroundColors (sg : StyleGuide) : sg.getBackgroundColors.Nodup := by
  unfold StyleGuide.getBackgroundColors
  by_cases h : (((sg.statistics.properties "background-color").getD []).filter
      (fun v => v != "")).length = 0
  · simp only [if_pos h]
    rw [List.length_eq_zero] at h
    simp [h]
  · simp only [if_neg h]
    exact nodup_jsSortStr ((nodup_unique _).filter _)

theorem mem_getColors {sg : StyleGuide} {x : String} :
    x ∈ sg.getColors ↔ x ∈ sg.getColorColors ∨ x ∈ sg.getBackgroundColors := by
  unfold StyleGuide.getColors
  rw [mem_jsSortStr, mem_unique, List.mem_append]

theorem nodup_getColors (sg : StyleGuide) : sg.getColors.Nodup :=
  nodup_jsSortStr (nodup_unique _)

/-! ### Lemmas about `jsTrim` and `jsSplit` -/

theorem dropWhile_head_false {p : Char → Bool} :
    ∀ {l : List Char} {x : Char} {xs : List Char}, l.dropWhile p = x :: xs → p x = false := by
  intro l
  induction l with
  | nil => intro x xs h; exact absurd h (by simp)
  | cons c t ih =>
    intro x xs h
    by_cases hc : p c
    · rw [List.dropWhile_cons_of_pos hc] at h
      exact ih h
    · rw [List.dropWhile_cons_of_neg hc] at h
      cases h
      exact Bool.of_not_eq_true hc

theorem dropWhile_dropWhile (p : Char → Bool) (l : List Char) :
    (l.dropWhile p).dropWhile p = l.dropWhile p := by
  cases h : l.dropWhile p with
  | nil => rfl
  | cons x xs =>
    rw [List.dropWhile_cons_of_neg (by simp [dropWhile_head_false h])]

/-- `trimChars l` is `l` with a whitespace prefix and suffix removed: it is a
prefix of `dropWhile isWhitespace l`. -/
theorem trimChars_prefix_dropWhile (l : List Char) :
    trimChars l <+: l.dropWhile Char.isWhitespace := by
  unfold trimChars
  have h := List.dropWhile_suffix (l := (l.dropWhile Char.isWhitespace).reverse)
    Char.isWhitespace
  rw [← List.reverse_prefix] at h
  simpa using h

theorem mem_trimChars_subset {l : List Char} {x : Char} (h : x ∈ trimChars l) : x ∈ l := by
  have := (trimChars_prefix_dropWhile l).sublist.subset h
  exact (List.dropWhile_suffix Char.isWhitespace).sublist.subset this

theorem trimChars_idem (l : List Char) : trimChars (trimChars l) = trimChars l := by
  have hrev : (trimChars l).reverse = (l.dropWhile Char.isWhitespace).reverse.dropWhile
      Char.isWhitespace := by
    simp [trimChars]
  have hleft : (trimChars l).dropWhile Char.isWhitespace = trimChars l := by
    cases ht : trimChars l with
    | nil => rfl
    | cons x xs =>
      rcases trimChars_prefix_dropWhile l with ⟨t, hpre⟩
      rw [ht] at hpre
      have hx : Char.isWhitespace x = false := dropWhile_head_false hpre.symm
      rw [List.dropWhile_cons_of_neg (by simp [hx])]
  have hright : (trimChars l).reverse.dropWhile Char.isWhitespace = (trimChars l).reverse := by
    rw [hrev, dropWhile_dropWhile]
  show ((((trimChars l).dropWhile Char.isWhitespace).reverse).dropWhile
    Char.isWhitespace).reverse = trimChars l
  rw [hleft, hright, List.reverse_reverse]

theorem jsTrim_idem (s : String) : jsTrim (jsTrim s) = jsTrim s := by
  show String.mk (trimChars (String.mk (trimChars s.toList)).toList) = _
  have h : (String.mk (trimChars s.toList)).toList = trimChars s.toList := rfl
  rw [h, trimChars_idem]
  rfl

theorem mem_jsTrim_toList {s : String} {c : Char} (h : c ∈ (jsTrim s).toList) : c ∈ s.toList :=
  mem_trimChars_subset h

theorem splitChars_ne_nil (sep : Char) (l : List Char) : splitChars sep l ≠ [] := by
  cases l with
  | nil => simp [splitChars]
  | cons c rest =>
    by_cases h : c = sep
    · simp [splitChars, h]
    · simp only [splitChars, if_neg h]
      cases splitChars sep rest <;> simp

theorem sep_not_mem_of_mem_splitChars {sep : Char} :
    ∀ {l t : List Char}, t ∈ splitChars sep l → sep ∉ t := by
  intro l
  induction l with
  | nil =>
    intro t ht
    simp only [splitChars, List.mem_singleton] at ht
    simp [ht]
  | cons c rest ih =>
    intro t ht
    by_cases h : c = sep
    · simp only [splitChars, if_pos h, List.mem_cons] at ht
      rcases ht with rfl | ht
      · simp
      · exact ih ht
    · simp only [splitChars, if_neg h] at ht
      cases hs : splitChars sep rest with
      | nil => exact absurd hs (splitChars_ne_nil sep rest)
      | cons t0 ts =>
        rw [hs] at ht
        rcases List.mem_cons.mp ht with rfl | ht'
        · intro hmem
          rcases List.mem_cons.mp hmem with rfl | hmem'
          · exact h rfl
          · exact ih (hs ▸ List.mem_cons_self t0 ts) hmem'
        · exact ih (hs ▸ List.mem_cons_of_mem t0 ht')

theorem splitChars_of_not_mem {sep : Char} :
    ∀ {l : List Char}, sep ∉ l → splitChars sep l = [l] := by
  intro l
  induction l with
  | nil => intro _; rfl
  | cons c rest ih =>
    intro h
    have hc : ¬ c = sep := fun hc => h (hc ▸ List.mem_cons_self c rest)
    have hrest : sep ∉ rest := fun hr => h (List.mem_cons_of_mem c hr)
    simp only [splitChars, if_neg hc, ih hrest]

theorem jsSplit_of_not_mem {sep : Char} {s : String} (h : sep ∉ s.toList) :
    jsSplit sep s = [s] := by
  unfold jsSplit
  rw [splitChars_of_not_mem h]
  rfl

theorem mem_jsSplit_not_sep {sep : Char} {s t : String} (ht : t ∈ jsSplit sep s) :
    sep ∉ t.toList := by
  unfold jsSplit at ht
  rcases List.mem_map.mp ht with ⟨tc, htc, rfl⟩
  exact sep_not_mem_of_mem_splitChars htc

/-! ### Lemmas about the font pipelines -/

theorem not_contains_iff {l : List String} {x : String} :
    (!l.contains x) = true ↔ x ∉ l := by
  simp [List.elem_iff]

theorem foldl_append_eq_flatMap {α β : Type} (f : α → List β) :
    ∀ (l : List α) (init : List β),
      l.foldl (fun acc x => acc ++ f x) init = init ++ l.flatMap f := by
  intro l
  induction l with
  | nil => intro init; simp
  | cons a t ih =>
    intro init
    rw [List.foldl_cons, ih, List.flatMap_cons, List.append_assoc]

theorem mem_getFontsInUse {sg : StyleGuide} {x : String} :
    x ∈ sg.getFontsInUse ↔
      ∃ fam ∈ sg.statistics.allFontFamilies, ∃ t ∈ jsSplit ',' fam, x = jsTrim t := by
  unfold StyleGuide.getFontsInUse StyleGuide.getFontFamilies
  rw [mem_jsSortStr, mem_unique,
    foldl_append_eq_flatMap (fun fontFamily => (jsSplit ',' fontFamily).map jsTrim),
    List.nil_append, List.mem_flatMap]
  constructor
  · rintro ⟨fam, hfam, hx⟩
    rcases List.mem_map.mp hx with ⟨t, ht, rfl⟩
    exact ⟨fam, hfam, t, ht, rfl⟩
  · rintro ⟨fam, hfam, t, ht, rfl⟩
    exact ⟨fam, hfam, List.mem_map.mpr ⟨t, ht, rfl⟩⟩

theorem nodup_getFontsInUse (sg : StyleGuide) : sg.getFontsInUse.Nodup :=
  nodup_jsSortStr (nodup_unique _)

/-- Every entry of `fontsInUse()` is comma-free and already trimmed. -/
theorem getFontsInUse_fixed {sg : StyleGuide} {x : String} (h : x ∈ sg.getFontsInUse) :
    ',' ∉ x.toList ∧ jsTrim x = x := by
  rcases mem_getFontsInUse.mp h with ⟨fam, _, t, ht, rfl⟩
  refine ⟨fun hc => mem_jsSplit_not_sep ht (mem_jsTrim_toList hc), jsTrim_idem t⟩

theorem flatMap_singleton_id {α : Type} {g : α → List α} :
    ∀ {l : List α}, (∀ f ∈ l, g f = [f]) → l.flatMap g = l := by
  intro l
  induction l with
  | nil => intro _; rfl
  | cons a t ih =>
    intro h
    rw [List.flatMap_cons, h a (List.mem_cons_self a t),
      ih (fun f hf => h f (List.mem_cons_of_mem a hf))]
    rfl

/-- The re-split/re-trim of `fontsInUse()` inside `getFontsNotInUse` is the
identity: `declaredFonts` is `fontsInUse()` itself. -/
theorem declared_eq_getFontsInUse (sg : StyleGuide) :
    unique (sg.getFontsInUse.foldl
      (fun fonts fontFamily => fonts ++ (jsSplit ',' fontFamily).map jsTrim) []) =
      sg.getFontsInUse := by
  rw [foldl_append_eq_flatMap (fun fontFamily => (jsSplit ',' fontFamily).map jsTrim),
    List.nil_append]
  rw [flatMap_singleton_id (fun f hf => ?_)]
  · exact unique_eq_self (nodup_getFontsInUse sg)
  · rcases getFontsInUse_fixed hf with ⟨hc, htr⟩
    rw [jsSplit_of_not_mem hc, List.map_singleton, htr]

theorem mem_getFontsNotInUse {sg : StyleGuide} {x : String} :
    x ∈ sg.getFontsNotInUse ↔ x ∈ sg.getFontUrls.map Prod.fst ∧ x ∉ sg.getFontsInUse := by
  show x ∈ (sg.getFontUrls.map Prod.fst).filter
      (fun font => !(unique (sg.getFontsInUse.foldl
        (fun fonts fontFamily => fonts ++ (jsSplit ',' fontFamily).map jsTrim) [])).contains
        font) ↔ _
  rw [List.mem_filter, declared_eq_getFontsInUse, not_contains_iff]

theorem not_mem_notInUse_of_mem_inUse {sg : StyleGuide} {x : String}
    (h : x ∈ sg.getFontsInUse) : x ∉ sg.getFontsNotInUse := fun hn =>
  (mem_getFontsNotInUse.mp hn).2 h

theorem getFontUrls_eq_foldl (sg : StyleGuide) :
    sg.getFontUrls = (sg.cssAst.stylesheet.rules.filter
      (fun item => item.type == "font-face")).foldl
      (fun hash declarationBlock =>
        hashInsert hash (ffKey declarationBlock) (ffUrl declarationBlock)) [] := rfl

theorem keys_hashInsert (h : List (String × String)) (k v : String) :
    (hashInsert h k v).map Prod.fst =
      if h.any (fun p => p.1 == k) = true then h.map Prod.fst else h.map Prod.fst ++ [k] := by
  unfold hashInsert
  by_cases hk : h.any (fun p => p.1 == k) = true
  · rw [if_pos hk, if_pos hk, List.map_map]
    apply List.map_congr_left
    intro p _
    by_cases hpk : p.1 == k
    · simp only [Function.comp, if_pos hpk]
      exact (beq_iff_eq.mp hpk).symm
    · simp [Function.comp, hpk]
  · rw [if_neg hk, if_neg hk, List.map_append]
    rfl

theorem mem_keys_hashInsert {h : List (String × String)} {k v x : String} :
    x ∈ (hashInsert h k v).map Prod.fst ↔ x ∈ h.map Prod.fst ∨ x = k := by
  rw [keys_hashInsert]
  by_cases hk : h.any (fun p => p.1 == k) = true
  · rw [if_pos hk]
    constructor
    · exact Or.inl
    · rintro (hx | rfl)
      · exact hx
      · rcases List.any_eq_true.mp hk with ⟨p, hp, hpk⟩
        exact List.mem_map.mpr ⟨p, hp, beq_iff_eq.mp hpk⟩
  · rw [if_neg hk]
    simp

theorem nodup_keys_hashInsert {h : List (String × String)} {k v : String}
    (hn : (h.map Prod.fst).Nodup) : ((hashInsert h k v).map Prod.fst).Nodup := by
  rw [keys_hashInsert]
  by_cases hk : h.any (fun p => p.1 == k) = true
  · rw [if_pos hk]; exact hn
  · rw [if_neg hk]
    refine List.Nodup.append hn (List.nodup_singleton k) ?_
    intro x hx hxk
    rw [List.mem_singleton] at hxk
    subst hxk
    rcases List.mem_map.mp hx with ⟨p, hp, hpx⟩
    exact hk (List.any_eq_true.mpr ⟨p, hp, beq_iff_eq.mpr hpx⟩)

theorem nodup_keys_foldl_hashInsert {β : Type} (key val : β → String) :
    ∀ (l : List β) (h : List (String × String)), (h.map Prod.fst).Nodup →
      ((l.foldl (fun hash b => hashInsert hash (key b) (val b)) h).map Prod.fst).Nodup := by
  intro l
  induction l with
  | nil => intro h hn; exact hn
  | cons b t ih => intro h hn; exact ih _ (nodup_keys_hashInsert hn)

theorem mem_keys_foldl_hashInsert {β : Type} (key val : β → String) :
    ∀ (l : List β) (h : List (String × String)) (x : String),
      (x ∈ (l.foldl (fun hash b => hashInsert hash (key b) (val b)) h).map Prod.fst) ↔
        x ∈ h.map Prod.fst ∨ ∃ b ∈ l, key b = x := by
  intro l
  induction l with
  | nil => intro h x; simp
  | cons b t ih =>
    intro h x
    rw [List.foldl_cons, ih, mem_keys_hashInsert]
    constructor
    · rintro ((hx | rfl) | ⟨b', hb', rfl⟩)
      · exact Or.inl hx
      · exact Or.inr ⟨b, List.mem_cons_self b t, rfl⟩
      · exact Or.inr ⟨b', List.mem_cons_of_mem b hb', rfl⟩
    · rintro (hx | ⟨b', hb', rfl⟩)
      · exact Or.inl (Or.inl hx)
      · rcases List.mem_cons.mp hb' with rfl | hb't
        · exact Or.inl (Or.inr rfl)
        · exact Or.inr ⟨b', hb't, rfl⟩

theorem nodup_getFontUrls_keys (sg : StyleGuide) : (sg.getFontUrls.map Prod.fst).Nodup := by
  rw [getFontUrls_eq_foldl]
  exact nodup_keys_foldl_hashInsert ffKey ffUrl _ [] (by simp)

theorem mem_getFontUrls_keys {sg : StyleGuide} {x : String} :
    x ∈ sg.getFontUrls.map Prod.fst ↔
      ∃ r ∈ sg.cssAst.stylesheet.rules, r.type = "font-face" ∧ ffKey r = x := by
  rw [getFontUrls_eq_foldl, mem_keys_foldl_hashInsert]
  simp only [List.map_nil, List.not_mem_nil, false_or, List.mem_filter, beq_iff_eq]
  constructor
  · rintro ⟨r, ⟨hr, ht⟩, hk⟩
    exact ⟨r, hr, ht, hk⟩
  · rintro ⟨r, hr, ht, hk⟩
    exact ⟨r, ⟨hr, ht⟩, hk⟩

theorem nodup_getFontsNotInUse (sg : StyleGuide) : sg.getFontsNotInUse.Nodup := by
  show ((sg.getFontUrls.map Prod.fst).filter _).Nodup
  exact (nodup_getFontUrls_keys sg).filter _

theorem nodup_getFonts (sg : StyleGuide) : sg.getFonts.Nodup := by
  refine List.Nodup.append (nodup_getFontsInUse sg) (nodup_getFontsNotInUse sg) ?_
  intro x hx hx'
  exact (mem_getFontsNotInUse.mp hx').2 hx

/-! ### Lemmas about `getFontSizes` and `getSpacings` -/

theorem mem_getFontSizes {sg : StyleGuide} {x : String} :
    x ∈ sg.getFontSizes ↔ x ∈ sg.statistics.allFontSizes ∧ x ∉ excludedValues := by
  unfold StyleGuide.getFontSizes
  rw [List.mem_filter, mem_unique, not_contains_iff]

theorem nodup_getFontSizes (sg : StyleGuide) : sg.getFontSizes.Nodup :=
  (nodup_unique _).filter _

theorem spacings_filter_eq (sg : StyleGuide) :
    ((sg.statistics.properties "margin").getD [] ++
      (match sg.statistics.properties "padding" with
        | some l => l
        | none => [""])).filter (fun v => v != "") =
      (rawSpacingValues sg).filter (fun v => v != "") := by
  unfold rawSpacingValues
  cases hp : sg.statistics.properties "padding" with
  | none => simp [List.filter_append]
  | some l => simp [List.filter_append]

theorem mem_getSpacings {sg : StyleGuide} {x : String} :
    x ∈ sg.getSpacings ↔
      (∃ v ∈ rawSpacingValues sg, v ≠ "" ∧ x ∈ jsSplit ' ' v) ∧ x ∉ excludedValues := by
  unfold StyleGuide.getSpacings
  rw [spacings_filter_eq]
  set base := (rawSpacingValues sg).filter (fun v => v != "") with hbase
  have hmem_base : ∀ v, v ∈ base ↔ v ∈ rawSpacingValues sg ∧ v ≠ "" := by
    intro v; simp [hbase]
  by_cases h : base.length = 0
  · rw [if_pos h]
    rw [List.length_eq_zero] at h
    constructor
    · intro hx; rw [h] at hx; exact absurd hx (List.not_mem_nil x)
    · rintro ⟨⟨v, hv1, hv2, _⟩, _⟩
      have : v ∈ base := (hmem_base v).mpr ⟨hv1, hv2⟩
      rw [h] at this; exact absurd this (List.not_mem_nil v)
  · rw [if_neg h]
    rw [List.mem_reverse, mem_jsSortBy, List.mem_filter, mem_unique,
      foldl_append_eq_flatMap (fun value => jsSplit ' ' value), List.nil_append,
      List.mem_flatMap]
    constructor
    · rintro ⟨⟨v, hv, hx⟩, he⟩
      rcases (hmem_base v).mp hv with ⟨hv1, hv2⟩
      exact ⟨⟨v, hv1, hv2, hx⟩, not_contains_iff.mp he⟩
    · rintro ⟨⟨v, hv1, hv2, hx⟩, he⟩
      exact ⟨⟨v, (hmem_base v).mpr ⟨hv1, hv2⟩, hx⟩, not_contains_iff.mpr he⟩

theorem nodup_getSpacings (sg : StyleGuide) : sg.getSpacings.Nodup := by
  unfold StyleGuide.getSpacings
  by_cases h : (((sg.statistics.properties "margin").getD [] ++
      (match sg.statistics.properties "padding" with
        | some l => l
        | none => [""])).filter (fun v => v != "")).length = 0
  · rw [if_pos h]
    rw [List.length_eq_zero] at h
    simp [h]
  · rw [if_neg h]
    rw [List.nodup_reverse]
    exact nodup_jsSortBy _ ((nodup_unique _).filter _)

/-! ### Claim C1 -/

/-- **C1, counterexample.** The claim quantifies over all the listed
accessors, `fontFamilies`/`getFontFamilies` and the font lists included; on
`sgC1`, `getFontFamilies` has a duplicate and contains the excluded value
`inherit`, `getFontsInUse` contains `inherit`, and `getFontsNotInUse` and
`getFonts` contain the excluded value `none`. -/
theorem c1_counterexample :
    ¬ sgC1.getFontFamilies.Nodup ∧
      "inherit" ∈ sgC1.getFontFamilies ∧ "inherit" ∈ excludedValues ∧
      "inherit" ∈ sgC1.getFontsInUse ∧ "none" ∈ sgC1.getFontsNotInUse ∧
      "none" ∈ sgC1.getFonts ∧ "none" ∈ excludedValues := by decide

/-- **C1 (amended).** For every parsed document: the value lists returned by
`getBackgroundColors`, `getColorColors` (textColors), `getColors`,
`getFontSizes`, `getFontsInUse`, `getFontsNotInUse`, `getFonts` and
`getSpacings` contain no duplicate entries, and the five lists that apply
exclusion filtering — `getBackgroundColors`, `getColorColors`, `getColors`,
`getFontSizes`, `getSpacings` — contain none of the values `auto`,
`inherit`, `initial`, `none`.  (`getFontFamilies` is the raw aggregation
and guarantees neither; the font lists may contain excluded values.) -/
theorem c1_amended_canonical_lists (sg : StyleGuide) :
    (sg.getBackgroundColors.Nodup ∧ sg.getColorColors.Nodup ∧ sg.getColors.Nodup ∧
      sg.getFontSizes.Nodup ∧ sg.getSpacings.Nodup ∧ sg.getFontsInUse.Nodup ∧
      sg.getFontsNotInUse.Nodup ∧ sg.getFonts.Nodup) ∧
    (∀ x ∈ excludedValues,
      x ∉ sg.getBackgroundColors ∧ x ∉ sg.getColorColors ∧ x ∉ sg.getColors ∧
        x ∉ sg.getFontSizes ∧ x ∉ sg.getSpacings) := by
  refine ⟨⟨nodup_getBackgroundColors sg, nodup_getColorColors sg, nodup_getColors sg,
    nodup_getFontSizes sg, nodup_getSpacings sg, nodup_getFontsInUse sg,
    nodup_getFontsNotInUse sg, nodup_getFonts sg⟩, ?_⟩
  intro x hx
  refine ⟨fun h => (mem_getBackgroundColors.mp h).2.2.2 hx,
    fun h => (mem_getColorColors.mp h).2.2.2 hx,
    fun h => ?_,
    fun h => (mem_getFontSizes.mp h).2 hx,
    fun h => (mem_getSpacings.mp h).2 hx⟩
  rcases mem_getColors.mp h with h' | h'
  · exact (mem_getColorColors.mp h').2.2.2 hx
  · exact (mem_getBackgroundColors.mp h').2.2.2 hx

theorem c1_amended_canonical_lists_witness :
    sgC1.getFonts.Nodup ∧ "auto" ∉ sgC1.getSpacings :=
  ⟨(c1_amended_canonical_lists sgC1).1.2.2.2.2.2.2.2,
    ((c1_amended_canonical_lists sgC1).2 "auto" (by decide)).2.2.2.2⟩

/-! ### Claim C2 -/

/-- **C2.** For every parsed document, `colors()` is exactly the
deduplicated, lexicographically ascending sorted union of `textColors()`
(`getColorColors`) and `backgroundColors()`: every element of either list
appears in `colors()` exactly once, and `colors()` contains no other
element. -/
theorem c2_colors_is_sorted_dedup_union (sg : StyleGuide) :
    (∀ x, x ∈ sg.getColors ↔ x ∈ sg.getColorColors ∨ x ∈ sg.getBackgroundColors) ∧
    (∀ x, x ∈ sg.getColors → sg.getColors.count x = 1) ∧
    sg.getColors.Sorted (· ≤ ·) :=
  ⟨fun _ => mem_getColors,
    fun _ hx => List.count_eq_one_of_mem (nodup_getColors sg) hx,
    jsSortStr_sorted _⟩

theorem c2_colors_is_sorted_dedup_union_witness :
    ("#000" ∈ sgC2w.getColors ↔ "#000" ∈ sgC2w.getColorColors ∨
      "#000" ∈ sgC2w.getBackgroundColors) ∧
    sgC2w.getColors.count "#000" = 1 ∧ sgC2w.getColors.Sorted (· ≤ ·) :=
  ⟨(c2_colors_is_sorted_dedup_union sgC2w).1 "#000",
    (c2_colors_is_sorted_dedup_union sgC2w).2.1 "#000" (by decide),
    (c2_colors_is_sorted_dedup_union sgC2w).2.2⟩

theorem wellFormed_not_hacky {c : String} (h : wellFormedHexColor c = true) :
    isHackyColor c = false := by
  unfold wellFormedHexColor at h
  unfold isHackyColor
  split at h
  · rw [h]
    rfl
  · exact absurd h Bool.false_ne_true

theorem wellFormed_ne_empty {c : String} (h : wellFormedHexColor c = true) : c ≠ "" := by
  intro he
  subst he
  exact absurd h (by decide)

theorem wellFormed_not_excluded {c : String} (h : wellFormedHexColor c = true) :
    c ∉ excludedValues := by
  intro hmem
  simp only [excludedValues, List.mem_cons, List.not_mem_nil, or_false] at hmem
  rcases hmem with rfl | rfl | rfl | rfl <;> exact absurd h (by decide)

/-! ### Claim C7 -/

/-- **C7.** A color starting with `#` whose remainder is not exactly 3 or 6
hex digits (the hacky-hex predicate) never appears in `textColors()`
(`getColorColors`), `backgroundColors()` or `colors()`; a well-formed 3- or
6-digit hex color aggregated in the source does appear; and on the document
with `color:#000\9` and `color:#000`, `textColors()` is exactly `["#000"]`. -/
theorem c7_hacky_hex_exclusion (sg : StyleGuide) :
    (∀ c, isHackyColor c = true →
      c ∉ sg.getColorColors ∧ c ∉ sg.getBackgroundColors ∧ c ∉ sg.getColors) ∧
    (∀ c, wellFormedHexColor c = true →
      (c ∈ (sg.statistics.properties "color").getD [] →
        c ∈ sg.getColorColors ∧ c ∈ sg.getColors) ∧
      (c ∈ (sg.statistics.properties "background-color").getD [] →
        c ∈ sg.getBackgroundColors ∧ c ∈ sg.getColors)) ∧
    sgC7.getColorColors = ["#000"] := by
  refine ⟨?_, ?_, by decide⟩
  · intro c hc
    have h1 : c ∉ sg.getColorColors := fun h => by
      have hf := (mem_getColorColors.mp h).2.2.1
      rw [hc] at hf
      exact absurd hf (by decide)
    have h2 : c ∉ sg.getBackgroundColors := fun h => by
      have hf := (mem_getBackgroundColors.mp h).2.2.1
      rw [hc] at hf
      exact absurd hf (by decide)
    refine ⟨h1, h2, fun h => ?_⟩
    rcases mem_getColors.mp h with h' | h'
    · exact h1 h'
    · exact h2 h'
  · intro c hc
    constructor
    · intro hmem
      have h1 : c ∈ sg.getColorColors := mem_getColorColors.mpr
        ⟨hmem, wellFormed_ne_empty hc, wellFormed_not_hacky hc, wellFormed_not_excluded hc⟩
      exact ⟨h1, mem_getColors.mpr (Or.inl h1)⟩
    · intro hmem
      have h1 : c ∈ sg.getBackgroundColors := mem_getBackgroundColors.mpr
        ⟨hmem, wellFormed_ne_empty hc, wellFormed_not_hacky hc, wellFormed_not_excluded hc⟩
      exact ⟨h1, mem_getColors.mpr (Or.inr h1)⟩

theorem c7_hacky_hex_exclusion_witness :
    "#000\\9" ∉ sgC7.getColorColors ∧ "#000" ∈ sgC7.getColorColors :=
  ⟨((c7_hacky_hex_exclusion sgC7).1 "#000\\9" (by decide)).1,
    (((c7_hacky_hex_exclusion sgC7).2.1 "#000" (by decide)).1 (by decide)).1⟩

/-! ### Claim C8 -/

/-- **C8.** `fontsInUse()` and `fontsNotInUse()` are disjoint: no string is
an element of both. -/
theorem c8_fonts_partition_disjoint (sg : StyleGuide) :
    ∀ x, ¬ (x ∈ sg.getFontsInUse ∧ x ∈ sg.getFontsNotInUse) := by
  rintro x ⟨h1, h2⟩
  exact not_mem_notInUse_of_mem_inUse h1 h2

theorem c8_fonts_partition_disjoint_witness :
    ¬ ("none" ∈ sgC1.getFontsInUse ∧ "none" ∈ sgC1.getFontsNotInUse) :=
  c8_fonts_partition_disjoint sgC1 "none"

/-! ### The url regex strips query strings: general lemmas -/

theorem existsClose_append {q rest : List Char} (hq : ∀ c ∈ q, dotMatch c = true) :
    existsClose (q ++ ')' :: rest) = true := by
  induction q with
  | nil => rfl
  | cons c q' ih =>
    rw [List.cons_append]
    show (closeQP (c :: (q' ++ ')' :: rest)) ||
      (dotMatch c && existsClose (q' ++ ')' :: rest))) = true
    rw [ih (fun c' hc' => hq c' (List.mem_cons_of_mem _ hc')),
      hq c (List.mem_cons_self c q')]
    simp

theorem tailPat_false_of_plain {c : Char} {l : List Char} (h1 : c ≠ '?') (h2 : c ≠ ')')
    (h3 : isQuoteChar c = false) : tailPat (c :: l) = false := by
  show ((c == '?' && existsClose l) || closeQP (c :: l)) = false
  show ((c == '?' && existsClose l) ||
    (c == ')' || (isQuoteChar c && l.head? == some ')'))) = false
  simp [h1, h2, h3]

theorem tailPat_query {q rest : List Char} (hq : ∀ c ∈ q, dotMatch c = true) :
    tailPat ('?' :: (q ++ ')' :: rest)) = true := by
  show (('?' == '?' && existsClose (q ++ ')' :: rest)) || closeQP _) = true
  rw [existsClose_append hq]
  simp

theorem lazyCapture_strips {p q rest : List Char}
    (hp : ∀ c ∈ p, c ≠ '?' ∧ c ≠ ')' ∧ isQuoteChar c = false ∧ dotMatch c = true)
    (hq : ∀ c ∈ q, dotMatch c = true) :
    lazyCapture (p ++ '?' :: q ++ ')' :: rest) = some p := by
  induction p with
  | nil =>
    rw [List.nil_append]
    show (if tailPat ('?' :: (q ++ ')' :: rest)) = true then some []
      else if dotMatch '?' = true then
        (lazyCapture (q ++ ')' :: rest)).map (fun g => '?' :: g)
      else none) = some []
    rw [if_pos (tailPat_query hq)]
  | cons c p' ih =>
    rcases hp c (List.mem_cons_self c p') with ⟨h1, h2, h3, h4⟩
    rw [List.cons_append]
    show (if tailPat (c :: (p' ++ '?' :: q ++ ')' :: rest)) = true then some []
      else if dotMatch c = true then
        (lazyCapture (p' ++ '?' :: q ++ ')' :: rest)).map (fun g => c :: g)
      else none) = some (c :: p')
    rw [if_neg (by rw [tailPat_false_of_plain h1 h2 h3]; exact Bool.false_ne_true), if_pos h4,
      ih (fun c' hc' => hp c' (List.mem_cons_of_mem c hc'))]
    rfl

theorem afterParen_no_quote (c : Char) (rest : List Char) (h : isQuoteChar c = false) :
    afterParen (c :: rest) = lazyCapture (c :: rest) := by
  show (if isQuoteChar c = true then _ else lazyCapture (c :: rest)) = _
  rw [if_neg (by rw [h]; exact Bool.false_ne_true)]

/-- Group 1 of the url regex on `url(<path>?<query>)<anything>`: the
query string is stripped and exactly the path is captured, provided the
path contains no `?`, `)`, quote or line terminator and the query no line
terminator. -/
theorem urlMatch1_strips_query {p q rest : List Char}
    (hp : ∀ c ∈ p, c ≠ '?' ∧ c ≠ ')' ∧ isQuoteChar c = false ∧ dotMatch c = true)
    (hq : ∀ c ∈ q, dotMatch c = true) :
    urlMatch1 (String.mk ('u' :: 'r' :: 'l' :: '(' :: (p ++ '?' :: q ++ ')' :: rest))) =
      some (String.mk p) := by
  have hdrop : (('(' : Char) :: (p ++ '?' :: q ++ ')' :: rest)).dropWhile Char.isWhitespace =
      '(' :: (p ++ '?' :: q ++ ')' :: rest) :=
    List.dropWhile_cons_of_neg (by decide)
  have hafter : afterParen (p ++ '?' :: q ++ ')' :: rest) = some p := by
    cases p with
    | nil =>
      show afterParen ('?' :: (q ++ ')' :: rest)) = some []
      rw [afterParen_no_quote '?' (q ++ ')' :: rest) (by decide)]
      exact lazyCapture_strips (p := []) hp hq
    | cons c p' =>
      rcases hp c (List.mem_cons_self c p') with ⟨_, _, h3, _⟩
      show afterParen (c :: ((p' ++ '?' :: q) ++ ')' :: rest)) = some (c :: p')
      rw [afterParen_no_quote c ((p' ++ '?' :: q) ++ ')' :: rest) h3]
      exact lazyCapture_strips hp hq
  have hmatch : matchUrlAt ('u' :: 'r' :: 'l' :: '(' :: (p ++ '?' :: q ++ ')' :: rest)) =
      some p := by
    show (if ('u'.toLower = 'u' && 'r'.toLower = 'r' && 'l'.toLower = 'l') = true then
      match (('(' : Char) :: (p ++ '?' :: q ++ ')' :: rest)).dropWhile Char.isWhitespace with
      | '(' :: rest2 => afterParen rest2
      | _ => none
      else none) = some p
    rw [if_pos (by decide), hdrop]
    exact hafter
  show (urlRegexCapture _).map String.mk = _
  have hcap : urlRegexCapture ('u' :: 'r' :: 'l' :: '(' :: (p ++ '?' :: q ++ ')' :: rest)) =
      some p := by
    show (matchUrlAt _).orElse (fun _ => urlRegexCapture _) = some p
    rw [hmatch]
    rfl
  rw [show (String.mk ('u' :: 'r' :: 'l' :: '(' :: (p ++ '?' :: q ++ ')' :: rest))).toList =
    'u' :: 'r' :: 'l' :: '(' :: (p ++ '?' :: q ++ ')' :: rest) from rfl, hcap]
  rfl

/-! ### Claim C10 -/

/-- **C10.** `fontUrls()` keys are the `font-face` rule's `font-family`
value verbatim (quotes included); the url regex strips a trailing query
string from the captured path; `fontsNotInUse()` is membership in the key
list minus exact-string membership in `fontsInUse()`; and on the
`"Open Sans"` scenario the quoted key maps to the query-stripped path and
appears in `fontsNotInUse()`. -/
theorem c10_font_urls_verbatim_literal_match (sg : StyleGuide) :
    (∀ r : RuleNode, ∀ v : String,
      ((r.declarations.filter (fun d => d.type == "declaration" &&
        d.property == "font-family")).map (fun d => d.value)).getLast? = some v →
      ffKey r = v) ∧
    (∀ x, x ∈ sg.getFontsNotInUse ↔
      x ∈ sg.getFontUrls.map Prod.fst ∧ x ∉ sg.getFontsInUse) ∧
    (∀ p q rest : List Char,
      (∀ c ∈ p, c ≠ '?' ∧ c ≠ ')' ∧ isQuoteChar c = false ∧ dotMatch c = true) →
      (∀ c ∈ q, dotMatch c = true) →
      urlMatch1 (String.mk ('u' :: 'r' :: 'l' :: '(' :: (p ++ '?' :: q ++ ')' :: rest))) =
        some (String.mk p)) ∧
    (sgFF.getFontUrls = [("\"Open Sans\"", "fonts/open-sans.woff")] ∧
      sgFF.getFontsNotInUse = ["\"Open Sans\""]) := by
  refine ⟨?_, fun _ => mem_getFontsNotInUse, fun p q rest hp hq => urlMatch1_strips_query hp hq,
    by decide, by decide⟩
  intro r v h
  unfold ffKey
  rw [h]
  rfl

theorem c10_font_urls_verbatim_literal_match_witness :
    ffKey ⟨"font-face", [], [⟨"declaration", "font-family", "\"Open Sans\""⟩]⟩ =
      "\"Open Sans\"" ∧
    ("\"Open Sans\"" ∈ sgFF.getFontsNotInUse ↔
      "\"Open Sans\"" ∈ sgFF.getFontUrls.map Prod.fst ∧
        "\"Open Sans\"" ∉ sgFF.getFontsInUse) ∧
    urlMatch1 (String.mk ('u' :: 'r' :: 'l' :: '(' :: (['a'] ++ '?' :: ['b'] ++ ')' :: []))) =
      some (String.mk ['a']) :=
  ⟨(c10_font_urls_verbatim_literal_match sgFF).1 _ _ (by decide),
    (c10_font_urls_verbatim_literal_match sgFF).2.1 _,
    (c10_font_urls_verbatim_literal_match sgFF).2.2.1 ['a'] ['b'] []
      (by decide) (by decide)⟩

/-! ### Claim C9 -/

/-- **C9, counterexample.** For a `font-face` rule with no `font-family`
declaration the code does not substitute an empty value for the missing
part: the JS property write `hash[undefined] = ...` coerces the missing key
to the literal string `"undefined"`. -/
theorem c9_counterexample :
    sgFF2.getFontUrls = [("undefined", "a.woff")] ∧
      "" ∉ sgFF2.getFontUrls.map Prod.fst ∧ "undefined" ∈ sgFF2.getFontUrls.map Prod.fst := by
  decide

/-- **C9 (amended).** Every Core operation of the embedding is a total
function of the parsed document.  `fontUrls()` contains its failures per
rule: a `font-face` rule with no `src` declaration contributes the empty
string as its url; a rule with no `font-family` declaration is recorded
under the literal key `"undefined"` (JS coercion of the missing key), not
an empty value; every `font-face` rule contributes its key, so processing
continues over the remaining rules; and missing `margin`/`padding`
aggregations make `spacings()` return the empty list rather than raise. -/
theorem c9_error_containment (sg : StyleGuide) :
    (∀ r : RuleNode, r.declarations.filter (fun d => d.type == "declaration" &&
      d.property == "src") = [] → ffUrl r = "") ∧
    (∀ r : RuleNode, r.declarations.filter (fun d => d.type == "declaration" &&
      d.property == "font-family") = [] → ffKey r = "undefined") ∧
    (∀ r ∈ sg.cssAst.stylesheet.rules, r.type = "font-face" →
      ffKey r ∈ sg.getFontUrls.map Prod.fst) ∧
    (rawSpacingValues sg = [] → sg.getSpacings = []) ∧
    sgC9.getFontUrls = [("f1", ""), ("f2", "b.woff")] := by
  refine ⟨?_, ?_, ?_, ?_, by decide⟩
  · intro r h
    unfold ffUrl
    rw [h]
    rfl
  · intro r h
    unfold ffKey
    rw [h]
    rfl
  · intro r hr ht
    exact mem_getFontUrls_keys.mpr ⟨r, hr, ht, rfl⟩
  · intro h
    rw [List.eq_nil_iff_forall_not_mem]
    intro x hx
    rcases (mem_getSpacings.mp hx).1 with ⟨v, hv, _, _⟩
    rw [h] at hv
    exact List.not_mem_nil v hv

theorem c9_error_containment_witness :
    ffUrl ruleNoSrc = "" ∧ ffKey ruleNoFam = "undefined" ∧
      "f1" ∈ sgC9.getFontUrls.map Prod.fst ∧ sgNoProps.getSpacings = [] :=
  ⟨(c9_error_containment sgC9).1 ruleNoSrc (by decide),
    (c9_error_containment sgC9).2.1 ruleNoFam (by decide),
    (c9_error_containment sgC9).2.2.1 ruleNoSrc (by decide) (by decide),
    (c9_error_containment sgNoProps).2.2.2.1 (by decide)⟩

theorem filter_flatMap_comm {α β : Type} (g : α → List β) (q : β → Bool) :
    ∀ l : List α, (l.flatMap g).filter q = l.flatMap (fun x => (g x).filter q) := by
  intro l
  induction l with
  | nil => rfl
  | cons a t ih => rw [List.flatMap_cons, List.flatMap_cons, List.filter_append, ih]

theorem flatMap_filter_comm {α β : Type} (g : α → List β) (p : α → Bool) :
    ∀ l : List α, (l.filter p).flatMap g = l.flatMap (fun x => if p x then g x else []) := by
  intro l
  induction l with
  | nil => rfl
  | cons a t ih =>
    by_cases hp : p a
    · rw [List.filter_cons_of_pos hp, List.flatMap_cons, ih, List.flatMap_cons, if_pos hp]
    · rw [List.filter_cons_of_neg hp, ih, List.flatMap_cons, if_neg hp, List.nil_append]

theorem length_one_head_eq {l : List String} {a : String}
    (h : (l.length == 1 && l.headD "" == a) = true) : l = [a] := by
  cases l with
  | nil => simp at h
  | cons x t =>
    cases t with
    | nil =>
      simp only [List.headD_cons, Bool.and_eq_true, beq_iff_eq] at h
      rw [h.2]
    | cons y t' => simp at h

theorem htmlFontSizeDecls_eq (sg : StyleGuide) :
    (((sg.cssAst.stylesheet.rules.filter (fun declaration =>
      declaration.type == "rule" && declaration.selectors.length == 1 &&
        declaration.selectors.headD "" == "html")).foldl
      (fun previous declarationBlock => previous ++ declarationBlock.declarations) []).filter
      (fun declaration => declaration.type == "declaration" &&
        declaration.property == "font-size")).map (fun d => d.value) =
      htmlFontSizeDecls sg := by
  rw [foldl_append_eq_flatMap (f := fun declarationBlock : RuleNode =>
      declarationBlock.declarations),
    List.nil_append, flatMap_filter_comm, filter_flatMap_comm, List.map_flatMap]
  unfold htmlFontSizeDecls
  apply List.flatMap_congr ?_
  intro r _
  by_cases hr : (r.type == "rule" && r.selectors.length == 1 &&
      r.selectors.headD "" == "html") = true
  · rw [if_pos hr]
    have hsel : r.selectors = ["html"] := by
      rcases Bool.and_eq_true_iff.mp hr with ⟨h1, h2⟩
      exact length_one_head_eq (Bool.and_eq_true_iff.mpr
        ⟨(Bool.and_eq_true_iff.mp h1).2, h2⟩)
    have htype : r.type = "rule" := by
      rcases Bool.and_eq_true_iff.mp hr with ⟨h1, _⟩
      exact beq_iff_eq.mp (Bool.and_eq_true_iff.mp h1).1
    rw [if_pos ⟨htype, hsel⟩]
  · rw [if_neg hr, if_neg ?_]
    · rfl
    · rintro ⟨h1, h2⟩
      apply hr
      rw [h2]
      simp [h1]

theorem getLast?_map {α β : Type} (f : α → β) (l : List α) :
    (l.map f).getLast? = l.getLast?.map f := by
  induction l with
  | nil => rfl
  | cons a t ih =>
    cases t with
    | nil => rfl
    | cons b t' =>
      rw [List.map_cons, List.map_cons, List.getLast?_cons_cons, ← List.map_cons, ih,
        List.getLast?_cons_cons]

/-! ### Claim C3 -/

/-- **C3.** The root font size is computed from the `font-size` declarations
on rules whose selector is exactly `html`: the last one in source order
wins; a percentage value resolves against the fixed 16px default (so
`html{font-size:62.5%}` yields exactly `10px`); any other value is used
literally; with no such declaration the result is `16px`. -/
theorem c3_root_font_size (sg : StyleGuide) :
    (htmlFontSizeDecls sg = [] → getRootFontSize sg = "16px") ∧
    (∀ v, (htmlFontSizeDecls sg).getLast? = some v → containsSub v "%" = false →
      getRootFontSize sg = v) ∧
    (∀ v x, (htmlFontSizeDecls sg).getLast? = some v → containsSub v "%" = true →
      parseFloat v = some x →
      getRootFontSize sg = ratToStr (16 * x / 100) ++ "px") ∧
    (getRootFontSize sgC3 = "10px" ∧ getRootFontSize sgC3b = "18px") := by
  have hpipe := htmlFontSizeDecls_eq sg
  refine ⟨?_, ?_, ?_, by decide, by decide⟩
  · intro h
    unfold getRootFontSize
    rw [← hpipe, List.map_eq_nil_iff] at h
    rw [h]
    rfl
  · intro v hv hpct
    unfold getRootFontSize
    rw [← hpipe, getLast?_map] at hv
    rcases Option.map_eq_some'.mp hv with ⟨fs, hfs, hval⟩
    rw [hfs]
    show (if containsSub fs.value "%" = true then
      numToStr (qDiv (qMul (parseFloat defaultFontSize) (parseFloat fs.value)) 100) ++ "px"
      else fs.value) = v
    rw [hval, hpct]
    simp
  · intro v x hv hpct hx
    unfold getRootFontSize
    rw [← hpipe, getLast?_map] at hv
    rcases Option.map_eq_some'.mp hv with ⟨fs, hfs, hval⟩
    rw [hfs]
    show (if containsSub fs.value "%" = true then
      numToStr (qDiv (qMul (parseFloat defaultFontSize) (parseFloat fs.value)) 100) ++ "px"
      else fs.value) = ratToStr (16 * x / 100) ++ "px"
    rw [hval, hpct, if_pos rfl]
    have h16 : parseFloat defaultFontSize = some 16 := by decide
    rw [h16, hx]
    rfl

theorem c3_root_font_size_witness :
    getRootFontSize sgNoProps = "16px" ∧ getRootFontSize sgC3b = "18px" ∧
      getRootFontSize sgC3 = ratToStr (16 * (125 / 2 : ℚ) / 100) ++ "px" :=
  ⟨(c3_root_font_size sgNoProps).1 (by decide),
    (c3_root_font_size sgC3b).2.1 "18px" (by decide) (by decide),
    (c3_root_font_size sgC3).2.2.1 "62.5%" (125 / 2 : ℚ) (by decide) (by decide) (by decide)⟩

/-! ### Claim C4 -/

/-- **C4.** The comparator's `replace(/([-\d.]+).*/, '')` deletes from the
first numeric character to the end of the string, leaving the prefix
*before* the number — the empty string for every ordinary CSS token — not
the unit suffix the function's own doc comment and the spec describe.  On
`2pt` versus `10em` both computed units are `""`, so the code compares the
magnitudes (2 < 10) where the spec's comparator orders by unit
(`em` < `pt`), and the emitted non-scalable lists differ. -/
theorem c4_unit_comparator_code_bug :
    replaceNumericTail "2pt" = "" ∧ replaceNumericTail "10em" = "" ∧
    specUnitSuffix "2pt" = "pt" ∧ specUnitSuffix "10em" = "em" ∧
    sortUnitValues "2pt" "10em" = some (-8) ∧
    specSortUnitValues "2pt" "10em" = some 1 ∧
    filterScalableFontSizes ["2pt", "10em"] = ["10em", "2pt"] ∧
    specNonScalableList ["2pt", "10em"] = ["2pt", "10em"] := by decide

/-! ### Claim C5 -/

theorem lexLtChars_iff_lex : ∀ (as bs : List Char),
    lexLtChars as bs = true ↔ List.Lex (· < ·) as bs := by
  intro as
  induction as with
  | nil =>
    intro bs
    cases bs with
    | nil => exact iff_of_false (by simp [lexLtChars]) (fun h => by cases h)
    | cons b bs => exact iff_of_true (by simp [lexLtChars]) List.Lex.nil
  | cons a as ih =>
    intro bs
    cases bs with
    | nil => exact iff_of_false (by simp [lexLtChars]) (fun h => by cases h)
    | cons b bs =>
      by_cases hab : a < b
      · exact iff_of_true (by simp [lexLtChars, hab]) (List.Lex.rel hab)
      · by_cases hba : b < a
        · simp only [lexLtChars, if_neg hab, if_pos hba]
          refine iff_of_false (by simp) (fun h => ?_)
          cases h with
          | rel h' => exact absurd h' hab
          | cons h' => exact absurd rfl (ne_of_gt hba)
        · have hEq : a = b := le_antisymm (not_lt.mp hba) (not_lt.mp hab)
          subst hEq
          simp only [lexLtChars, if_neg hab, if_neg hba]
          rw [ih bs]
          constructor
          · exact fun h => List.Lex.cons h
          · intro h
            cases h with
            | rel h' => exact absurd h' hab
            | cons h' => exact h'

theorem jsLtStr_iff_lt {a b : String} : jsLtStr a b = true ↔ a < b := by
  rw [jsLtStr, lexLtChars_iff_lex, String.lt_iff_toList_lt]
  exact Iff.rfl

theorem localeCompareQ_nonpos {a b : String} : localeCompareQ a b ≤ 0 ↔ a ≤ b := by
  unfold localeCompareQ
  by_cases h1 : jsLtStr a b = true
  · rw [if_pos h1]
    exact iff_of_true (by norm_num) (le_of_lt (jsLtStr_iff_lt.mp h1))
  · rw [if_neg h1]
    by_cases h2 : jsLtStr b a = true
    · rw [if_pos h2]
      refine iff_of_false (by norm_num) (fun hle => ?_)
      exact absurd (jsLtStr_iff_lt.mp h2) (not_lt.mpr hle)
    · rw [if_neg h2]
      refine iff_of_true le_rfl (le_of_not_lt ?_)
      intro hlt
      exact h2 (jsLtStr_iff_lt.mpr hlt)

theorem sortUnitValues_le_total (a b : String) :
    (sortUnitValues a b).getD 0 ≤ 0 ∨ (sortUnitValues b a).getD 0 ≤ 0 := by
  unfold sortUnitValues
  by_cases hu : replaceNumericTail a != replaceNumericTail b
  · rw [if_pos hu, if_pos (by simp only [bne_iff_ne] at hu ⊢; exact hu.symm)]
    simp only [Option.getD_some]
    rcases le_total (replaceNumericTail a) (replaceNumericTail b) with h | h
    · exact Or.inl (localeCompareQ_nonpos.mpr h)
    · exact Or.inr (localeCompareQ_nonpos.mpr h)
  · rw [if_neg hu, if_neg (by simp only [bne_iff_ne] at hu ⊢; exact fun h => hu h.symm)]
    cases ha : parseFloat a with
    | none => simp [qSub]
    | some qa =>
      cases hb : parseFloat b with
      | none => simp [qSub]
      | some qb =>
        simp only [qSub, Option.getD_some]
        rcases le_total qa qb with h | h
        · exact Or.inl (by simpa using sub_nonpos.mpr h)
        · exact Or.inr (by simpa using sub_nonpos.mpr h)

theorem sortUnitValues_le_iff_of_some {a b : String} {qa qb : ℚ}
    (ha : parseFloat a = some qa) (hb : parseFloat b = some qb) :
    ((sortUnitValues a b).getD 0 ≤ 0 ↔
      (replaceNumericTail a < replaceNumericTail b ∨
        (replaceNumericTail a = replaceNumericTail b ∧ qa ≤ qb))) := by
  unfold sortUnitValues
  by_cases hu : replaceNumericTail a != replaceNumericTail b
  · have hne : replaceNumericTail a ≠ replaceNumericTail b := by simpa using hu
    rw [if_pos hu]
    simp only [Option.getD_some]
    rw [localeCompareQ_nonpos]
    constructor
    · intro h
      exact Or.inl (lt_of_le_of_ne h hne)
    · rintro (h | ⟨h, _⟩)
      · exact le_of_lt h
      · exact absurd h hne
  · have heq : replaceNumericTail a = replaceNumericTail b := by
      simpa using hu
    rw [if_neg hu, ha, hb]
    simp only [qSub, Option.getD_some]
    rw [sub_nonpos]
    constructor
    · intro h
      exact Or.inr ⟨heq, h⟩
    · rintro (h | ⟨_, h⟩)
      · exact absurd heq (ne_of_lt h)
      · exact h

theorem sortUnitValues_le_trans {a b c : String} {qa qb qc : ℚ}
    (ha : parseFloat a = some qa) (hb : parseFloat b = some qb) (hc : parseFloat c = some qc)
    (hab : (sortUnitValues a b).getD 0 ≤ 0) (hbc : (sortUnitValues b c).getD 0 ≤ 0) :
    (sortUnitValues a c).getD 0 ≤ 0 := by
  rw [sortUnitValues_le_iff_of_some ha hb] at hab
  rw [sortUnitValues_le_iff_of_some hb hc] at hbc
  rw [sortUnitValues_le_iff_of_some ha hc]
  rcases hab with h1 | ⟨h1, h1'⟩
  · rcases hbc with h2 | ⟨h2, _⟩
    · exact Or.inl (lt_trans h1 h2)
    · exact Or.inl (h2 ▸ h1)
  · rcases hbc with h2 | ⟨h2, h2'⟩
    · exact Or.inl (h1 ▸ h2)
    · exact Or.inr ⟨h1.trans h2, le_trans h1' h2'⟩

theorem pairwise_jsSortBy {α : Type} (cmp : α → α → Option ℚ) (l : List α)
    (htot : ∀ a ∈ l, ∀ b ∈ l, (cmp a b).getD 0 ≤ 0 ∨ (cmp b a).getD 0 ≤ 0)
    (htrans : ∀ a ∈ l, ∀ b ∈ l, ∀ c ∈ l, (cmp a b).getD 0 ≤ 0 → (cmp b c).getD 0 ≤ 0 →
      (cmp a c).getD 0 ≤ 0) :
    (jsSortBy cmp l).Pairwise (fun a b => (cmp a b).getD 0 ≤ 0) := by
  have h := pairwise_insSort (fun a b => decide ((cmp a b).getD 0 ≤ 0)) l
    (fun a ha b hb => by
      rcases htot a ha b hb with h' | h'
      · exact Or.inl (decide_eq_true h')
      · exact Or.inr (decide_eq_true h'))
    (fun a ha b hb c hc hab hbc => decide_eq_true
      (htrans a ha b hb c hc (of_decide_eq_true hab) (of_decide_eq_true hbc)))
  exact h.imp (fun hx => of_decide_eq_true hx)

/-- When every emitted spacing token parses, the emitted list is descending
for the implemented comparator. -/
theorem getSpacings_pairwise {sg : StyleGuide}
    (hp : ∀ x ∈ sg.getSpacings, (parseFloat x).isSome = true) :
    sg.getSpacings.Pairwise (fun a b => (sortUnitValues b a).getD 0 ≤ 0) := by
  unfold StyleGuide.getSpacings
  unfold StyleGuide.getSpacings at hp
  by_cases h : (((sg.statistics.properties "margin").getD [] ++
      (match sg.statistics.properties "padding" with
        | some l => l
        | none => [""])).filter (fun v => v != "")).length = 0
  · rw [if_pos h]
    rw [List.length_eq_zero] at h
    rw [h]
    exact List.Pairwise.nil
  · rw [if_neg h]
    rw [if_neg h] at hp
    rw [List.pairwise_reverse]
    set L := (unique ((((sg.statistics.properties "margin").getD [] ++
      (match sg.statistics.properties "padding" with
        | some l => l
        | none => [""])).filter (fun v => v != "")).foldl
      (fun previous value => previous ++ jsSplit ' ' value) [])).filter
      (fun item => !excludedValues.contains item) with hL
    have hp' : ∀ x ∈ jsSortBy sortUnitValues L, (parseFloat x).isSome = true := by
      intro x hx
      exact hp x (List.mem_reverse.mpr hx)
    have hpL : ∀ x ∈ L, (parseFloat x).isSome = true := by
      intro x hx
      exact hp' x ((mem_jsSortBy sortUnitValues).mpr hx)
    refine pairwise_jsSortBy sortUnitValues L
      (fun a _ b _ => sortUnitValues_le_total a b) ?_
    intro a haL b hbL c hcL hab hbc
    rcases Option.isSome_iff_exists.mp (hpL a haL) with ⟨qa, ha⟩
    rcases Option.isSome_iff_exists.mp (hpL b hbL) with ⟨qb, hb⟩
    rcases Option.isSome_iff_exists.mp (hpL c hcL) with ⟨qc, hc⟩
    exact sortUnitValues_le_trans ha hb hc hab hbc

/-- **C5, counterexample.** The claim says no whitespace-containing or
empty token ever appears in `spacings()`; but `split(' ')` splits only on
the single space character, so a double space yields an empty token and a
tab-separated value stays whole, and both appear in the output. -/
theorem c5_counterexample :
    "" ∈ sgC5a.getSpacings ∧ "".toList.length = 0 ∧
      "1px\t2px" ∈ sgC5b.getSpacings ∧ '\t' ∈ "1px\t2px".toList ∧
      '\t'.isWhitespace = true := by decide

/-- **C5 (amended).** `spacings()` concatenates the aggregated margin and
padding values, drops falsy entries (empty when the combined list is
empty), splits every remaining value on the single space character into
component tokens (values with consecutive spaces contribute empty-string
tokens, and tokens may retain non-space whitespace), deduplicates, removes
excluded values, sorts ascending with the implemented unit-aware comparator
and reverses; shorthand `10px 5px 10px 5px` collapses to the two tokens. -/
theorem c5_spacings_pipeline (sg : StyleGuide) :
    (∀ x, x ∈ sg.getSpacings ↔
      (∃ v ∈ rawSpacingValues sg, v ≠ "" ∧ x ∈ jsSplit ' ' v) ∧ x ∉ excludedValues) ∧
    sg.getSpacings.Nodup ∧
    ((∀ x ∈ sg.getSpacings, (parseFloat x).isSome = true) →
      sg.getSpacings.Pairwise (fun a b => (sortUnitValues b a).getD 0 ≤ 0)) ∧
    sgC5c.getSpacings = ["10px", "5px"] :=
  ⟨fun _ => mem_getSpacings, nodup_getSpacings sg, getSpacings_pairwise, by decide⟩

theorem c5_spacings_pipeline_witness :
    ("10px" ∈ sgC5c.getSpacings ↔
      (∃ v ∈ rawSpacingValues sgC5c, v ≠ "" ∧ "10px" ∈ jsSplit ' ' v) ∧
        "10px" ∉ excludedValues) ∧
    sgC5c.getSpacings.Pairwise (fun a b => (sortUnitValues b a).getD 0 ≤ 0) :=
  ⟨(c5_spacings_pipeline sgC5c).1 "10px",
    (c5_spacings_pipeline sgC5c).2.2.1 (by decide)⟩

theorem sortScalableFontSizes_eq_keys (rootFontSize : Option ℚ) (size1 size2 : String) :
    sortScalableFontSizes rootFontSize size1 size2 =
      qSub (scalableKey rootFontSize size1) (scalableKey rootFontSize size2) := rfl

theorem qSub_getD_total (x y : Option ℚ) :
    (qSub x y).getD 0 ≤ 0 ∨ (qSub y x).getD 0 ≤ 0 := by
  cases x with
  | none => cases y <;> simp [qSub]
  | some qx =>
    cases y with
    | none => simp [qSub]
    | some qy =>
      simp only [qSub, Option.getD_some]
      rcases le_total qx qy with h | h
      · exact Or.inl (by simpa using sub_nonpos.mpr h)
      · exact Or.inr (by simpa using sub_nonpos.mpr h)

theorem qSub_getD_le_iff (qx qy : ℚ) :
    (qSub (some qx) (some qy)).getD 0 ≤ 0 ↔ qx ≤ qy := by
  simp [qSub, sub_nonpos]

/-! ### Claim C6 -/

/-- **C6, counterexample.** The claim says the scaling helper keeps exactly
the font sizes whose *unit* is `px` or `rem`; the code keeps every size
*containing* `px` or `rem` as a substring, so `calc(1em + 2px)` — whose
unit suffix is not `px` — is kept. -/
theorem c6_counterexample :
    scaleFontSizes ["calc(1em + 2px)"] "16px" =
      [("calc(1em + 2px)", "calc(1em + 2px)")] ∧
    specUnitSuffix "calc(1em + 2px)" ≠ "px" ∧
    specUnitSuffix "calc(1em + 2px)" ≠ "rem" := by decide

/-- **C6 (amended).** The scaling helper keeps exactly the font sizes
containing `px` or `rem` as a substring (for ordinary single-unit sizes,
those whose unit is `px` or `rem`), pairs each with
`remToPx`-converted pixel text for rem values and with itself for px
values, and — whenever the kept sizes have numeric values — emits them in
descending order of the pixel-equivalent key (rem values multiplied by the
root size, px values as-is); on the spec's scenario the result is
`[[24px, 24px], [20px, 2rem]]`. -/
theorem c6_scale_font_sizes (fontSizes : List String) (rootSize : String) :
    (∀ p ∈ scaleFontSizes fontSizes rootSize,
      p.2 ∈ fontSizes ∧ (containsSub p.2 "rem" = true ∨ containsSub p.2 "px" = true) ∧
      p.1 = (if containsSub p.2 "rem" = true then remToPx (parseFloat rootSize) p.2
        else p.2)) ∧
    List.Perm ((scaleFontSizes fontSizes rootSize).map Prod.snd)
      (fontSizes.filter (fun size => containsSub size "rem" || containsSub size "px")) ∧
    ((∀ s ∈ fontSizes.filter (fun size => containsSub size "rem" || containsSub size "px"),
        (scalableKey (parseFloat rootSize) s).isSome = true) →
      (scaleFontSizes fontSizes rootSize).Pairwise (fun p q =>
        (scalableKey (parseFloat rootSize) q.2).getD 0 ≤
          (scalableKey (parseFloat rootSize) p.2).getD 0)) ∧
    scaleFontSizes sgC6.getFontSizes (getRootFontSize sgC6) =
      [("24px", "24px"), ("20px", "2rem")] := by
  set flt := fontSizes.filter (fun size => containsSub size "rem" || containsSub size "px")
    with hflt
  set L := (jsSortBy (sortScalableFontSizes (parseFloat rootSize)) flt).reverse with hL
  have hmemL : ∀ s ∈ L, s ∈ flt := by
    intro s hs
    rw [hL, List.mem_reverse, mem_jsSortBy] at hs
    exact hs
  have hout : scaleFontSizes fontSizes rootSize = L.map (fun size =>
      if containsSub size "rem" then (remToPx (parseFloat rootSize) size, size)
      else (size, size)) := rfl
  refine ⟨?_, ?_, ?_, by decide⟩
  · intro p hp
    rw [hout] at hp
    rcases List.mem_map.mp hp with ⟨s, hs, rfl⟩
    have hsf := hmemL s hs
    rw [hflt, List.mem_filter] at hsf
    by_cases hrem : containsSub s "rem" = true
    · simp only [if_pos hrem]
      exact ⟨hsf.1, Or.inl hrem, by simp [hrem]⟩
    · simp only [if_neg hrem]
      refine ⟨hsf.1, ?_, by simp [hrem]⟩
      have := hsf.2
      rw [Bool.or_eq_true] at this
      rcases this with h | h
      · exact Or.inl h
      · exact Or.inr h
  · rw [hout, List.map_map]
    have hmap : L.map (Prod.snd ∘ fun size =>
        if containsSub size "rem" then (remToPx (parseFloat rootSize) size, size)
        else (size, size)) = L.map id := by
      apply List.map_congr_left
      intro s _
      by_cases hrem : containsSub s "rem" = true
      · simp [Function.comp, hrem]
      · simp [Function.comp, hrem]
    rw [hmap, List.map_id, hL]
    exact (List.reverse_perm _).trans (perm_insSort _ _)
  · intro hk
    rw [hout]
    rw [List.pairwise_map]
    have hkL : ∀ s ∈ L, (scalableKey (parseFloat rootSize) s).isSome = true :=
      fun s hs => hk s (hmemL s hs)
    have hsorted : L.Pairwise (fun a b =>
        (sortScalableFontSizes (parseFloat rootSize) b a).getD 0 ≤ 0) := by
      rw [hL, List.pairwise_reverse]
      refine pairwise_jsSortBy _ flt (fun a _ b _ => ?_) ?_
      · rw [sortScalableFontSizes_eq_keys, sortScalableFontSizes_eq_keys]
        exact qSub_getD_total _ _
      · intro a haf b hbf c hcf hab hbc
        have hka := hk a haf
        have hkb := hk b hbf
        have hkc := hk c hcf
        rcases Option.isSome_iff_exists.mp hka with ⟨qa, hqa⟩
        rcases Option.isSome_iff_exists.mp hkb with ⟨qb, hqb⟩
        rcases Option.isSome_iff_exists.mp hkc with ⟨qc, hqc⟩
        rw [sortScalableFontSizes_eq_keys, hqa, hqb, qSub_getD_le_iff] at hab
        rw [sortScalableFontSizes_eq_keys, hqb, hqc, qSub_getD_le_iff] at hbc
        rw [sortScalableFontSizes_eq_keys, hqa, hqc, qSub_getD_le_iff]
        exact le_trans hab hbc
    refine hsorted.imp_of_mem ?_
    intro a b ha hb hab
    have hsnd : ∀ s, (Prod.snd (if containsSub s "rem" then
        (remToPx (parseFloat rootSize) s, s) else (s, s))) = s := by
      intro s
      by_cases hrem : containsSub s "rem" = true
      · simp [hrem]
      · simp [hrem]
    rw [hsnd, hsnd]
    rcases Option.isSome_iff_exists.mp (hkL a ha) with ⟨qa, hqa⟩
    rcases Option.isSome_iff_exists.mp (hkL b hb) with ⟨qb, hqb⟩
    rw [sortScalableFontSizes_eq_keys, hqb, hqa, qSub_getD_le_iff] at hab
    rw [hqa, hqb]
    simpa using hab

theorem c6_scale_font_sizes_witness :
    (("24px", "24px") ∈ scaleFontSizes sgC6.getFontSizes (getRootFontSize sgC6) →
      ("24px" : String) ∈ sgC6.getFontSizes) ∧
    (scaleFontSizes sgC6.getFontSizes (getRootFontSize sgC6)).Pairwise (fun p q =>
      (scalableKey (parseFloat (getRootFontSize sgC6)) q.2).getD 0 ≤
        (scalableKey (parseFloat (getRootFontSize sgC6)) p.2).getD 0) :=
  ⟨fun hp => ((c6_scale_font_sizes sgC6.getFontSizes (getRootFontSize sgC6)).1 _ hp).1,
    (c6_scale_font_sizes sgC6.getFontSizes (getRootFontSize sgC6)).2.2.1 (by decide)⟩

end AuderoLsg
